import Mathlib

/-!
Verification of the gas-metering middleware (`lib/middleware-common/src/metering.rs`)
and its C-API accessors (`lib/runtime-c-api/src/metering.rs`).

The Rust code is embedded shallowly:

* the event sink (`EventSink`) becomes a `List Event` with positional reads and
  writes (`List.getElem?` / `List.set`); positions are stable, as in the source;
* the two process-global internal fields `INTERNAL_FIELD_USED` and
  `INTERNAL_FIELD_LIMIT` become the two-element type `InternalFieldId`
  (only their distinctness and identity are observable);
* code paths that abort in Rust (an index out of bounds in
  `remove_trailing_injection`, or the `_ => panic` arm of `set_costs`) are
  modelled by returning `none`;
* the `u64` counters are modelled by `Nat` and the `i64` cost-slot payload by
  `Int`.  The Rust `+=`/`+` on these counters abort on overflow in checked
  builds, which the `none`-free paths here never reach for any stream short
  enough to exist; wrap-around of `I64Add` at runtime, where it is semantically
  relevant, is modelled explicitly with `% 2 ^ 64` in the prelude interpreter.

The `Metering` structure additionally carries two *ghost* fields,
`ghost_recorded` and `ghost_patched`, which do not exist in the source and do
not influence any behaviour: they only accumulate, for specification purposes,
every sink index ever recorded into `cost_operator_idxs` and the running total
of all values ever added to cost slots by `set_costs`.
-/

namespace WasmerMetering

/-- The two internal fields allocated by the metering middleware
(`INTERNAL_FIELD_USED`, `INTERNAL_FIELD_LIMIT`).  Only their identity is
observable. -/
inductive InternalFieldId where
  | USED
  | LIMIT
deriving DecidableEq, Repr

/-- `wasmparser::Type`, restricted to what the middleware mentions. -/
inductive WpType where
  | EmptyBlockType
  | I32
  | I64
deriving DecidableEq, Repr

/-- `wasmparser::TypeOrFuncType`. -/
inductive WpTypeOrFuncType where
  | Type (t : WpType)
  | FuncType (idx : Nat)
deriving DecidableEq, Repr

/-- The Wasm operator algebra, by kind: the control operators the transducer
recognizes, the operators it synthesizes, and an opaque remainder
(every other operator contributes unit cost and is otherwise ignored). -/
inductive Operator where
  | Unreachable
  | Nop
  | Block (ty : WpTypeOrFuncType)
  | Loop (ty : WpTypeOrFuncType)
  | If (ty : WpTypeOrFuncType)
  | Else
  | End
  | Br (relative_depth : Nat)
  | BrIf (relative_depth : Nat)
  | BrTable (table : Nat)
  | Return
  | Drop
  | I32Const (value : Int)
  | I64Const (value : Int)
  | I64Add
  | I64GtU
  | Other (code : Nat)
deriving DecidableEq, Repr

/-- The runtime error produced by the breakpoint callback
(`ExecutionLimitExceededError`). -/
inductive TrapReason where
  | ExecutionLimitExceeded
deriving DecidableEq, Repr

/-- `wasmer_runtime_core::codegen::InternalEvent`, restricted to the shapes the
middleware produces or dispatches on.  The breakpoint's callback is constant
(it always yields `ExecutionLimitExceededError`), so it is modelled by the
error marker it returns. -/
inductive InternalEvent where
  | FunctionBegin (idx : Nat)
  | FunctionEnd
  | GetInternal (field : InternalFieldId)
  | SetInternal (field : InternalFieldId)
  | Breakpoint (res : TrapReason)
  | OtherInternal (code : Nat)
deriving DecidableEq, Repr

/-- `wasmer_runtime_core::codegen::Event`: a borrowed operator, an owned
operator, or an internal pseudo-operator. -/
inductive Event where
  | Wasm (op : Operator)
  | WasmOwned (op : Operator)
  | Internal (iev : InternalEvent)
deriving DecidableEq, Repr

/-- The `Metering` middleware state.  `cost_operator_idxs` and
`current_block_cost` are the source's fields; `ghost_recorded` and
`ghost_patched` are ghost instrumentation (see the file header). -/
structure Metering where
  cost_operator_idxs : List Nat
  current_block_cost : Nat
  ghost_recorded : List Nat
  ghost_patched : Nat
deriving DecidableEq, Repr

/-- `Metering::new`. -/
def Metering.new : Metering :=
  { cost_operator_idxs := [], current_block_cost := 0
    ghost_recorded := [], ghost_patched := 0 }

/-- One iteration of the loop body of `Metering::set_costs`: the sink entry at
`idx` must be `WasmOwned(I64Const v)` and is replaced by
`WasmOwned(I64Const (v + cost))`; any other entry (or an out-of-range index)
aborts compilation. -/
def patchCostSlot (cost : Nat) (sink : List Event) (idx : Nat) : Option (List Event) :=
  match sink[idx]? with
  | some (Event.WasmOwned (Operator.I64Const v)) =>
      some (sink.set idx (Event.WasmOwned (Operator.I64Const (v + (cost : Int)))))
  | _ => none

/-- `Metering::set_costs`: add `current_block_cost` to every recorded cost
slot, then zero `current_block_cost`.  `cost_operator_idxs` is left as is.
The ghost total grows by the amount distributed over the slots. -/
def Metering.set_costs (m : Metering) (sink : List Event) :
    Option (Metering × List Event) := do
  let sink ← m.cost_operator_idxs.foldlM (patchCostSlot m.current_block_cost) sink
  some ({ m with
            current_block_cost := 0
            ghost_patched :=
              m.ghost_patched + m.current_block_cost * m.cost_operator_idxs.length },
        sink)

/-- `Metering::inject_metering`: push the ten-event metering prelude, recording
the sink position of the `I64Const 0` cost placeholder. -/
def Metering.inject_metering (m : Metering) (sink : List Event) :
    Metering × List Event :=
  let sink := sink ++ [Event.Internal (InternalEvent.GetInternal InternalFieldId.USED)]
  let m := { m with
               cost_operator_idxs := m.cost_operator_idxs ++ [sink.length]
               ghost_recorded := m.ghost_recorded ++ [sink.length] }
  let sink := sink ++ [Event.WasmOwned (Operator.I64Const 0)]
  let sink := sink ++ [Event.WasmOwned Operator.I64Add]
  let sink := sink ++ [Event.Internal (InternalEvent.SetInternal InternalFieldId.USED)]
  let sink := sink ++ [Event.Internal (InternalEvent.GetInternal InternalFieldId.USED)]
  let sink := sink ++ [Event.Internal (InternalEvent.GetInternal InternalFieldId.LIMIT)]
  let sink := sink ++ [Event.WasmOwned Operator.I64GtU]
  let sink := sink ++ [Event.WasmOwned (Operator.If (WpTypeOrFuncType.Type WpType.EmptyBlockType))]
  let sink := sink ++ [Event.Internal (InternalEvent.Breakpoint TrapReason.ExecutionLimitExceeded)]
  let sink := sink ++ [Event.WasmOwned Operator.End]
  (m, sink)

/-- `Metering::remove_trailing_injection`: if the event at position
`len - 11` is `WasmOwned(End)`, drop the last ten events.  In Rust the read of
`buffer[len - 11]` is unconditional, so a sink shorter than eleven events
aborts (usize underflow followed by an out-of-bounds index); that abort is
`none` here. -/
def Metering.remove_trailing_injection (sink : List Event) : Option (List Event) :=
  if sink.length < 11 then none
  else
    match sink[sink.length - 11]? with
    | some (Event.WasmOwned Operator.End) => some (sink.take (sink.length - 10))
    | _ => some sink

/-- `Metering::begin`. -/
def Metering.begin (m : Metering) (sink : List Event) :
    Option (Metering × List Event) := do
  let (m, sink) ← m.set_costs sink
  some (m.inject_metering sink)

/-- `Metering::end` (named `end_` because `end` is a Lean keyword). -/
def Metering.end_ (m : Metering) (sink : List Event) :
    Option (Metering × List Event) := do
  let (m, sink) ← m.set_costs sink
  some ({ m with cost_operator_idxs := [] }, sink)

/-- `Metering::increment_cost`: unconditionally add one. -/
def Metering.increment_cost (m : Metering) (_op : Event) : Metering :=
  { m with current_block_cost := m.current_block_cost + 1 }

/-- `<Metering as FunctionMiddleware>::feed_event`.  The Rust function's
`Result<(), String>` error channel is never used; every failure path is an
abort, modelled by `none`. -/
def Metering.feed_event (m : Metering) (ev : Event) (sink : List Event) :
    Option (Metering × List Event) :=
  let m := m.increment_cost ev
  match ev with
  | Event.Internal iev =>
    match iev with
    | InternalEvent.FunctionBegin _ =>
        let sink := sink ++ [ev]
        m.begin sink
    | InternalEvent.FunctionEnd => do
        let (m, sink) ← m.end_ sink
        let sink ← Metering.remove_trailing_injection sink
        some (m, sink ++ [ev])
    | _ => some (m, sink ++ [ev])
  | Event.Wasm op | Event.WasmOwned op => do
      let (m, sink) ←
        match op with
        | Operator.End | Operator.If _ | Operator.Else | Operator.Br _
        | Operator.BrIf _ | Operator.BrTable _ | Operator.Return => m.end_ sink
        | _ => some (m, sink)
      let op_idx := sink.length
      let sink := sink ++ [Event.WasmOwned Operator.Unreachable]
      let (m, sink) ←
        match op with
        | Operator.Loop _ | Operator.End | Operator.If _ | Operator.Else
        | Operator.BrIf _ => m.begin sink
        | _ => some (m, sink)
      some (m, sink.set op_idx ev)

/-- Feed a list of events in order through `feed_event`, threading the
middleware state and the sink. -/
def feedEvents (m : Metering) (sink : List Event) :
    List Event → Option (Metering × List Event)
  | [] => some (m, sink)
  | ev :: rest => do
      let (m, sink) ← m.feed_event ev sink
      feedEvents m sink rest

/-- Run a whole event stream from a fresh `Metering` and an empty sink. -/
def runMetering (evs : List Event) : Option (Metering × List Event) :=
  feedEvents Metering.new [] evs

/-! ## Specification-side kind predicates and the prelude description

These are written from the specification's block-boundary lists (spec section
4.3.2) and prelude table (spec section 4.3.1), independently of the `match`
arms inside `feed_event`, so that the theorems below relate the two. -/

/-- End-of-block (terminator) kinds: `End`, `If`, `Else`, `Br`, `BrIf`,
`BrTable`, `Return`. -/
def isTerminatorSpec : Operator → Bool
  | Operator.End | Operator.If _ | Operator.Else | Operator.Br _
  | Operator.BrIf _ | Operator.BrTable _ | Operator.Return => true
  | _ => false

/-- Start-of-block (opener) kinds: `Loop`, `End`, `If`, `Else`, `BrIf`. -/
def isOpenerSpec : Operator → Bool
  | Operator.Loop _ | Operator.End | Operator.If _ | Operator.Else
  | Operator.BrIf _ => true
  | _ => false

/-- The ten-event metering prelude with cost-slot value `v`, exactly as the
specification tabulates it. -/
def preludeEvents (v : Int) : List Event :=
  [Event.Internal (InternalEvent.GetInternal InternalFieldId.USED),
   Event.WasmOwned (Operator.I64Const v),
   Event.WasmOwned Operator.I64Add,
   Event.Internal (InternalEvent.SetInternal InternalFieldId.USED),
   Event.Internal (InternalEvent.GetInternal InternalFieldId.USED),
   Event.Internal (InternalEvent.GetInternal InternalFieldId.LIMIT),
   Event.WasmOwned Operator.I64GtU,
   Event.WasmOwned (Operator.If (WpTypeOrFuncType.Type WpType.EmptyBlockType)),
   Event.Internal (InternalEvent.Breakpoint TrapReason.ExecutionLimitExceeded),
   Event.WasmOwned Operator.End]

/-- An event that is a Wasm operator (borrowed or owned). -/
def isOperatorEvent : Event → Bool
  | Event.Wasm _ | Event.WasmOwned _ => true
  | Event.Internal _ => false

/-! ## Runtime semantics of the injected events

The backend that lowers `GetInternal`/`SetInternal`/`Breakpoint` and the Wasm
operators is not part of this repository's middleware sources, so the
interpreter below is modelled from the specification. -/

/-- The unsigned 64-bit modulus. -/
def U64MOD : Nat := 2 ^ 64

/-- Runtime state for executing an injected event sequence: the two internal
fields, the Wasm operand stack (unsigned 64-bit values), and the trap flag. -/
structure ExecState where
  used : Nat
  limit : Nat
  stack : List Nat
  trapped : Bool
deriving DecidableEq, Repr

/-- Read an internal field. -/
def readField (s : ExecState) : InternalFieldId → Nat
  | InternalFieldId.USED => s.used
  | InternalFieldId.LIMIT => s.limit

/-- Write an internal field. -/
def writeField (s : ExecState) : InternalFieldId → Nat → ExecState
  | InternalFieldId.USED, v => { s with used := v }
  | InternalFieldId.LIMIT, v => { s with limit := v }

/-- Reinterpret an `i64` constant as an unsigned 64-bit value. -/
def i64ToU64 (v : Int) : Nat := (v % (U64MOD : Int)).toNat

/-- Modelled from the spec: execution of a sequence of injected events
(sections 3 and 4.3.1) by the missing backend.  `GetInternal` pushes the
field, `SetInternal` pops into it, `I64Const`/`I64Add`/`I64GtU` are the usual
unsigned 64-bit stack operations (`I64GtU` tests the deeper operand strictly
greater than the top), `If` pops its condition and skips to the matching `End`
when it is zero (the `skip` argument is the current skipped-block depth), and
`Breakpoint` traps, ending execution. -/
def execEvents : ExecState → Nat → List Event → ExecState
  | s, _, [] => s
  | s, skip, e :: rest =>
    if s.trapped then s
    else if 0 < skip then
      match e with
      | Event.WasmOwned (Operator.If _) | Event.WasmOwned (Operator.Block _)
      | Event.WasmOwned (Operator.Loop _) => execEvents s (skip + 1) rest
      | Event.WasmOwned Operator.End => execEvents s (skip - 1) rest
      | _ => execEvents s skip rest
    else
      match e with
      | Event.Internal (InternalEvent.GetInternal f) =>
          execEvents { s with stack := readField s f :: s.stack } 0 rest
      | Event.Internal (InternalEvent.SetInternal f) =>
          match s.stack with
          | v :: tl => execEvents (writeField { s with stack := tl } f v) 0 rest
          | [] => execEvents s 0 rest
      | Event.Internal (InternalEvent.Breakpoint _) => { s with trapped := true }
      | Event.WasmOwned (Operator.I64Const v) =>
          execEvents { s with stack := i64ToU64 v :: s.stack } 0 rest
      | Event.WasmOwned Operator.I64Add =>
          match s.stack with
          | b :: a :: tl =>
              execEvents { s with stack := ((a + b) % U64MOD) :: tl } 0 rest
          | _ => execEvents s 0 rest
      | Event.WasmOwned Operator.I64GtU =>
          match s.stack with
          | b :: a :: tl =>
              execEvents { s with stack := (if b < a then 1 else 0) :: tl } 0 rest
          | _ => execEvents s 0 rest
      | Event.WasmOwned (Operator.If _) =>
          match s.stack with
          | c :: tl =>
              if c = 0 then execEvents { s with stack := tl } 1 rest
              else execEvents { s with stack := tl } 0 rest
          | [] => execEvents s 0 rest
      | _ => execEvents s 0 rest

/-! ## The C-API accessors (`lib/runtime-c-api/src/metering.rs`)

A possibly-null pointer argument is modelled by `Option`; dereferencing a null
handle is the failure `none` of the outer `Option` in the result, while
functions whose guarded branch returns before any dereference yield a value.
The instance-internal field storage read and written by the middleware's
accessors lives outside this repository's sources. -/

/-- Modelled from the spec: the per-instance internal 64-bit field storage
(section 4.4) behind `get_internal`/`set_internal`, restricted to the two
fields the metering middleware allocates.  Reads never fail; writes are
immediate. -/
structure InstanceStore where
  points_used : Nat
  exec_limit : Nat
deriving DecidableEq, Repr

/-- `metering::get_points_used`. -/
def get_points_used (inst : InstanceStore) : Nat := inst.points_used

/-- `metering::set_points_used`. -/
def set_points_used (inst : InstanceStore) (value : Nat) : InstanceStore :=
  { inst with points_used := value }

/-- `metering::get_execution_limit`. -/
def get_execution_limit (inst : InstanceStore) : Nat := inst.exec_limit

/-- `metering::set_execution_limit`. -/
def set_execution_limit (inst : InstanceStore) (limit : Nat) : InstanceStore :=
  { inst with exec_limit := limit }

/-- `wasmer_instance_get_points_used`: null handle is checked and returns 0. -/
def wasmer_instance_get_points_used (inst : Option InstanceStore) : Nat :=
  match inst with
  | none => 0
  | some i => get_points_used i

/-- `wasmer_instance_context_get_points_used`: null handle returns 0. -/
def wasmer_instance_context_get_points_used (ctx : Option InstanceStore) : Nat :=
  match ctx with
  | none => 0
  | some c => get_points_used c

/-- `wasmer_instance_set_points_used`: null handle is checked and the call is
a no-op (the guarded branch returns before any dereference). -/
def wasmer_instance_set_points_used (inst : Option InstanceStore)
    (new_gas : Nat) : Option (Option InstanceStore) :=
  match inst with
  | none => some none
  | some i => some (some (set_points_used i new_gas))

/-- `wasmer_instance_context_set_points_used`: null handle is a no-op. -/
def wasmer_instance_context_set_points_used (ctx : Option InstanceStore)
    (new_gas : Nat) : Option (Option InstanceStore) :=
  match ctx with
  | none => some none
  | some c => some (some (set_points_used c new_gas))

/-- `wasmer_instance_set_execution_limit`: no null check; the handle is
dereferenced unconditionally, so a null handle is the failure `none`. -/
def wasmer_instance_set_execution_limit (inst : Option InstanceStore)
    (limit : Nat) : Option (Option InstanceStore) :=
  match inst with
  | none => none
  | some i => some (some (set_execution_limit i limit))

/-- `wasmer_instance_get_execution_limit`: no null check; a null handle is the
failure `none`. -/
def wasmer_instance_get_execution_limit (inst : Option InstanceStore) :
    Option Nat :=
  match inst with
  | none => none
  | some i => some (get_execution_limit i)

/-- `wasmer_instance_context_set_execution_limit`: no null check. -/
def wasmer_instance_context_set_execution_limit (ctx : Option InstanceStore)
    (limit : Nat) : Option (Option InstanceStore) :=
  match ctx with
  | none => none
  | some c => some (some (set_execution_limit c limit))

/-- `wasmer_instance_context_get_execution_limit`: no null check. -/
def wasmer_instance_context_get_execution_limit (ctx : Option InstanceStore) :
    Option Nat :=
  match ctx with
  | none => none
  | some c => some (get_execution_limit c)

/-- Every recorded cost-slot position currently holds a `WasmOwned(I64Const)`
event — the precondition under which `set_costs` cannot abort. -/
def SlotsOk (m : Metering) (sink : List Event) : Prop :=
  ∀ i ∈ m.cost_operator_idxs, ∃ v : Int,
    sink[i]? = some (Event.WasmOwned (Operator.I64Const v))

/-- The reachable-state invariant of the transducer, phrased over the ghost
history: recorded slots are pending slots; pending slot positions are strictly
increasing; every ever-recorded position holds a nonnegative `I64Const`, a
strictly positive one once it is no longer pending; and every recorded
position is directly preceded by the prelude's `GetInternal(USED)`. -/
def GhostOk (m : Metering) (sink : List Event) : Prop :=
  (∀ i ∈ m.cost_operator_idxs, i ∈ m.ghost_recorded) ∧
  m.cost_operator_idxs.Pairwise (· < ·) ∧
  (∀ i ∈ m.ghost_recorded,
     ∃ v : Int, sink[i]? = some (Event.WasmOwned (Operator.I64Const v)) ∧ 0 ≤ v ∧
       (i ∉ m.cost_operator_idxs → 1 ≤ v)) ∧
  (∀ i ∈ m.ghost_recorded, 1 ≤ i ∧
     sink[i - 1]? = some (Event.Internal (InternalEvent.GetInternal InternalFieldId.USED)))

/-! ## Theorems -/

/-- C9: the four execution-limit FFI functions dereference a null handle
unconditionally (modelled as the failure `none`), while the points-used
accessors guard against null: the getters return 0 and the setters are
no-ops. -/
theorem execution_limit_ffi_has_no_null_check (limit gas : Nat) :
    wasmer_instance_set_execution_limit none limit = none ∧
    wasmer_instance_get_execution_limit none = none ∧
    wasmer_instance_context_set_execution_limit none limit = none ∧
    wasmer_instance_context_get_execution_limit none = none ∧
    wasmer_instance_get_points_used none = 0 ∧
    wasmer_instance_context_get_points_used none = 0 ∧
    wasmer_instance_set_points_used none gas = some none ∧
    wasmer_instance_context_set_points_used none gas = some none :=
  ⟨rfl, rfl, rfl, rfl, rfl, rfl, rfl, rfl⟩

/-- C2: `inject_metering` pushes exactly the ten-event prelude, in order, and
records the sink index of the `WasmOwned(I64Const 0)` cost slot (the second
prelude event) in `cost_operator_idxs`; executing the prelude with the slot
patched to `c` computes `USED := (USED + c) mod 2^64` and traps exactly when
the new `USED` strictly exceeds `LIMIT` as unsigned 64-bit values. -/
theorem inject_metering_prelude_and_runtime (m : Metering) (sink : List Event)
    (used limit c : Nat) :
    (m.inject_metering sink =
      ({ m with cost_operator_idxs := m.cost_operator_idxs ++ [sink.length + 1],
                ghost_recorded := m.ghost_recorded ++ [sink.length + 1] },
       sink ++ preludeEvents 0)) ∧
    ((sink ++ preludeEvents 0)[sink.length + 1]? =
      some (Event.WasmOwned (Operator.I64Const 0))) ∧
    (execEvents { used := used, limit := limit, stack := [], trapped := false } 0
        (preludeEvents (c : Int)) =
      { used := (used + c) % U64MOD, limit := limit, stack := [],
        trapped := decide (limit < (used + c) % U64MOD) }) := by
  refine ⟨?_, ?_, ?_⟩
  · simp [Metering.inject_metering, preludeEvents]
  · rw [List.getElem?_append_right (by omega)]
    simp [preludeEvents]
  · have hc : i64ToU64 (c : Int) = c % U64MOD := by
      simp [i64ToU64, U64MOD]
      omega
    by_cases h : limit < (used + c) % U64MOD <;>
      simp [execEvents, preludeEvents, readField, writeField, hc, h, Nat.add_mod_right]

/-- C5, counterexample: feeding just `FunctionBegin`, `FunctionEnd` leaves a
sink of twelve events, not the claimed two: the trailing strip does not fire. -/
theorem empty_body_sink_is_not_two_events :
    (runMetering [Event.Internal (InternalEvent.FunctionBegin 0),
                  Event.Internal InternalEvent.FunctionEnd]).map
        (fun p => p.2.length) = some 12 ∧ (12 : Nat) ≠ 2 := by
  decide

/-- C5, amended: feeding `FunctionBegin`, `FunctionEnd` produces
`FunctionBegin`, the full ten-event prelude with its cost slot back-patched to
1, then `FunctionEnd`.  The trailing strip does not remove the prelude because
the event at position `len - 11 = 0` is `Internal(FunctionBegin)`, not
`WasmOwned(End)`. -/
theorem empty_body_keeps_dead_prelude :
    runMetering [Event.Internal (InternalEvent.FunctionBegin 0),
                 Event.Internal InternalEvent.FunctionEnd] =
      some ({ cost_operator_idxs := [], current_block_cost := 0,
              ghost_recorded := [2], ghost_patched := 1 },
            Event.Internal (InternalEvent.FunctionBegin 0) ::
              preludeEvents 1 ++ [Event.Internal InternalEvent.FunctionEnd]) := by
  decide

/-- C6: feeding `FunctionBegin`, `I32Const 1`, `Drop`, `End`, `FunctionEnd`
(the operators owned) produces `FunctionBegin`, one prelude whose cost slot is
back-patched to 3, then `I32Const 1`, `Drop`, `End`, `FunctionEnd`, with no
trailing prelude left in the sink. -/
theorem straight_line_body_rewrite :
    runMetering [Event.Internal (InternalEvent.FunctionBegin 0),
                 Event.WasmOwned (Operator.I32Const 1),
                 Event.WasmOwned Operator.Drop,
                 Event.WasmOwned Operator.End,
                 Event.Internal InternalEvent.FunctionEnd] =
      some ({ cost_operator_idxs := [], current_block_cost := 0,
              ghost_recorded := [2, 15], ghost_patched := 4 },
            Event.Internal (InternalEvent.FunctionBegin 0) ::
              preludeEvents 3 ++
                [Event.WasmOwned (Operator.I32Const 1),
                 Event.WasmOwned Operator.Drop,
                 Event.WasmOwned Operator.End,
                 Event.Internal InternalEvent.FunctionEnd]) := by
  decide

/-- C4, counterexample: after `FunctionBegin` the recorded slot list is `[2]`;
after the following `Loop` boundary it is `[2, 13]`: the stale slot 2 from the
enclosing block was back-patched but *not* removed before the new slot 13 was
added, so the list does not contain only the currently open block's slots. -/
theorem loop_boundary_retains_stale_slot :
    (runMetering [Event.Internal (InternalEvent.FunctionBegin 0)]).map
        (fun p => p.1.cost_operator_idxs) = some [2] ∧
    (runMetering [Event.Internal (InternalEvent.FunctionBegin 0),
                  Event.WasmOwned (Operator.Loop (WpTypeOrFuncType.Type WpType.EmptyBlockType))]).map
        (fun p => p.1.cost_operator_idxs) = some [2, 13] := by
  decide

/-- C1, counterexample: for the body `FunctionBegin`, `Loop`, `Nop`, `Nop`,
`Br 0`, `End`, `FunctionEnd` (seven events, six after `FunctionBegin`), the
total back-patched cost is 8: the three events `Nop`, `Nop`, `Br 0` are
charged both to the slot before the `Loop` and to the slot inside it, while
`FunctionBegin`'s own increment is discarded.  The sum matches neither event
count. -/
theorem loop_body_overcharges_sum :
    (runMetering [Event.Internal (InternalEvent.FunctionBegin 0),
                  Event.WasmOwned (Operator.Loop (WpTypeOrFuncType.Type WpType.EmptyBlockType)),
                  Event.WasmOwned Operator.Nop,
                  Event.WasmOwned Operator.Nop,
                  Event.WasmOwned (Operator.Br 0),
                  Event.WasmOwned Operator.End,
                  Event.Internal InternalEvent.FunctionEnd]).map
        (fun p => p.1.ghost_patched) = some 8 ∧
    (8 : Nat) ≠ 7 ∧ (8 : Nat) ≠ 6 := by
  decide

/-- C7, counterexample: for the body `FunctionBegin`, `Drop`, `End`,
`FunctionEnd`, position 14 is recorded as a cost slot (inside the trailing
prelude), but the trailing strip removes that prelude, so the final sink has
length 14 and the recorded position holds no event at all, let alone a
positive `I64Const`. -/
theorem stripped_slot_position_is_gone :
    (runMetering [Event.Internal (InternalEvent.FunctionBegin 0),
                  Event.WasmOwned Operator.Drop,
                  Event.WasmOwned Operator.End,
                  Event.Internal InternalEvent.FunctionEnd]).map
        (fun p => (p.1.ghost_recorded, p.2.length, p.2[14]?)) =
      some ([2, 14], 14, none) := by
  decide

/-- Success of the back-patch fold: every recorded position holds an
`I64Const`, lengths are preserved, unrecorded positions are untouched, and each
recorded position grows by at least `cost` per occurrence. -/
theorem foldlM_patch_spec (cost : Nat) :
    ∀ (idxs : List Nat) (sink : List Event),
      (∀ i ∈ idxs, ∃ v : Int, sink[i]? = some (Event.WasmOwned (Operator.I64Const v))) →
      ∃ sink', idxs.foldlM (patchCostSlot cost) sink = some sink' ∧
        sink'.length = sink.length ∧
        (∀ j, j ∉ idxs → sink'[j]? = sink[j]?) ∧
        (∀ j ∈ idxs, ∀ v : Int,
          sink[j]? = some (Event.WasmOwned (Operator.I64Const v)) →
          ∃ w : Int, sink'[j]? = some (Event.WasmOwned (Operator.I64Const w)) ∧
            v + cost ≤ w) := by
  intro idxs
  induction idxs with
  | nil =>
      intro sink _
      exact ⟨sink, by simp, rfl, fun j _ => rfl, fun j hj => absurd hj (List.not_mem_nil j)⟩
  | cons i rest ih =>
      intro sink h
      obtain ⟨v, hv⟩ := h i (List.mem_cons_self i rest)
      set sink₁ := sink.set i (Event.WasmOwned (Operator.I64Const (v + (cost : Int)))) with hs1
      have hstep : patchCostSlot cost sink i = some sink₁ := by
        simp [patchCostSlot, hv]
      have hlt : i < sink.length := (List.getElem?_eq_some.mp hv).1
      have h1 : ∀ r ∈ rest, ∃ v' : Int,
          sink₁[r]? = some (Event.WasmOwned (Operator.I64Const v')) := by
        intro r hr
        by_cases hri : i = r
        · subst hri
          exact ⟨v + (cost : Int), by simp [hs1, List.getElem?_set_self, hlt]⟩
        · obtain ⟨v', hv'⟩ := h r (List.mem_cons_of_mem i hr)
          exact ⟨v', by rw [hs1, List.getElem?_set_ne hri]; exact hv'⟩
      obtain ⟨sink', hfold, hlen, hout, hin⟩ := ih sink₁ h1
      refine ⟨sink', ?_, ?_, ?_, ?_⟩
      · rw [List.foldlM_cons, hstep]
        exact hfold
      · rw [hlen, hs1, List.length_set]
      · intro j hj
        have hji : j ≠ i := fun hh => hj (hh ▸ List.mem_cons_self i rest)
        have hjr : j ∉ rest := fun hh => hj (List.mem_cons_of_mem i hh)
        rw [hout j hjr, hs1, List.getElem?_set_ne (Ne.symm hji)]
      · intro j hj w hw
        by_cases hji : j = i
        · subst hji
          have hvw : v = w := by
            rw [hv] at hw
            simpa using hw
          subst hvw
          have hset : sink₁[j]? =
              some (Event.WasmOwned (Operator.I64Const (v + (cost : Int)))) := by
            simp [hs1, List.getElem?_set_self, hlt]
          by_cases hjr : j ∈ rest
          · obtain ⟨w', hw', hle⟩ := hin j hjr (v + (cost : Int)) hset
            exact ⟨w', hw', by omega⟩
          · exact ⟨v + (cost : Int), by rw [hout j hjr]; exact hset, le_refl _⟩
        · have hjr : j ∈ rest := by
            rcases List.mem_cons.mp hj with hh | hh
            · exact absurd hh hji
            · exact hh
          have hset : sink₁[j]? = some (Event.WasmOwned (Operator.I64Const w)) := by
            rw [hs1, List.getElem?_set_ne fun hh => hji hh.symm]
            exact hw
          exact hin j hjr w hset

/-- Exact back-patching under distinct recorded positions: each recorded slot
gains exactly `cost`. -/
theorem foldlM_patch_nodup (cost : Nat) :
    ∀ (idxs : List Nat) (sink : List Event), idxs.Nodup →
      (∀ i ∈ idxs, ∃ v : Int, sink[i]? = some (Event.WasmOwned (Operator.I64Const v))) →
      ∃ sink', idxs.foldlM (patchCostSlot cost) sink = some sink' ∧
        sink'.length = sink.length ∧
        (∀ j, j ∉ idxs → sink'[j]? = sink[j]?) ∧
        (∀ j ∈ idxs, ∀ v : Int,
          sink[j]? = some (Event.WasmOwned (Operator.I64Const v)) →
          sink'[j]? = some (Event.WasmOwned (Operator.I64Const (v + (cost : Int))))) := by
  intro idxs
  induction idxs with
  | nil =>
      intro sink _ _
      exact ⟨sink, by simp, rfl, fun j _ => rfl, fun j hj => absurd hj (List.not_mem_nil j)⟩
  | cons i rest ih =>
      intro sink hnd h
      obtain ⟨v, hv⟩ := h i (List.mem_cons_self i rest)
      set sink₁ := sink.set i (Event.WasmOwned (Operator.I64Const (v + (cost : Int)))) with hs1
      have hstep : patchCostSlot cost sink i = some sink₁ := by
        simp [patchCostSlot, hv]
      have hlt : i < sink.length := (List.getElem?_eq_some.mp hv).1
      have hir : i ∉ rest := (List.nodup_cons.mp hnd).1
      have h1 : ∀ r ∈ rest, ∃ v' : Int,
          sink₁[r]? = some (Event.WasmOwned (Operator.I64Const v')) := by
        intro r hr
        obtain ⟨v', hv'⟩ := h r (List.mem_cons_of_mem i hr)
        exact ⟨v', by
          rw [hs1, List.getElem?_set_ne (by intro hh; subst hh; exact hir hr)]
          exact hv'⟩
      obtain ⟨sink', hfold, hlen, hout, hin⟩ := ih sink₁ (List.nodup_cons.mp hnd).2 h1
      refine ⟨sink', ?_, ?_, ?_, ?_⟩
      · rw [List.foldlM_cons, hstep]
        exact hfold
      · rw [hlen, hs1, List.length_set]
      · intro j hj
        have hji : j ≠ i := fun hh => hj (hh ▸ List.mem_cons_self i rest)
        have hjr : j ∉ rest := fun hh => hj (List.mem_cons_of_mem i hh)
        rw [hout j hjr, hs1, List.getElem?_set_ne (Ne.symm hji)]
      · intro j hj w hw
        by_cases hji : j = i
        · subst hji
          have hvw : v = w := by
            rw [hv] at hw
            simpa using hw
          subst hvw
          rw [hout j hir, hs1, List.getElem?_set_self hlt]
        · have hjr : j ∈ rest := by
            rcases List.mem_cons.mp hj with hh | hh
            · exact absurd hh hji
            · exact hh
          have hset : sink₁[j]? = some (Event.WasmOwned (Operator.I64Const w)) := by
            rw [hs1, List.getElem?_set_ne fun hh => hji hh.symm]
            exact hw
          exact hin j hjr w hset

/-- A single patch step aborts when the position does not hold a
`WasmOwned(I64Const)`. -/
theorem patchCostSlot_none_of_bad (cost : Nat) (sink : List Event) (i : Nat)
    (h : ∀ v : Int, sink[i]? ≠ some (Event.WasmOwned (Operator.I64Const v))) :
    patchCostSlot cost sink i = none := by
  unfold patchCostSlot
  cases hm : sink[i]? with
  | none => rfl
  | some e =>
      rcases e with op | op | iev
      · rfl
      · cases op <;> first | rfl | exact absurd hm (h _)
      · rfl

/-- If some recorded position does not hold a `WasmOwned(I64Const)`, the
back-patch fold aborts. -/
theorem foldlM_patch_fails (cost : Nat) :
    ∀ (idxs : List Nat) (sink : List Event),
      (∃ i ∈ idxs, ∀ v : Int, sink[i]? ≠ some (Event.WasmOwned (Operator.I64Const v))) →
      idxs.foldlM (patchCostSlot cost) sink = none := by
  intro idxs
  induction idxs with
  | nil =>
      intro sink h
      obtain ⟨i, hi, _⟩ := h
      exact absurd hi (List.not_mem_nil i)
  | cons i rest ih =>
      intro sink h
      obtain ⟨j, hj, hbad⟩ := h
      rw [List.foldlM_cons]
      by_cases hex : ∃ v : Int, sink[i]? = some (Event.WasmOwned (Operator.I64Const v))
      case pos =>
          obtain ⟨v, hmatch⟩ := hex
          have hstep : patchCostSlot cost sink i =
              some (sink.set i (Event.WasmOwned (Operator.I64Const (v + (cost : Int))))) := by
            simp [patchCostSlot, hmatch]
          rw [hstep]
          have hji : j ≠ i := by
            intro hh
            exact hbad v (hh ▸ hmatch)
          have hjr : j ∈ rest := by
            rcases List.mem_cons.mp hj with hh | hh
            · exact absurd hh hji
            · exact hh
          have : ∃ r ∈ rest, ∀ v' : Int,
              (sink.set i (Event.WasmOwned (Operator.I64Const (v + (cost : Int)))))[r]? ≠
                some (Event.WasmOwned (Operator.I64Const v')) := by
            refine ⟨j, hjr, fun v' hh => ?_⟩
            rw [List.getElem?_set_ne (fun hh2 => hji hh2.symm)] at hh
            exact hbad v' hh
          simpa using ih _ this
      case neg =>
          have hstep : patchCostSlot cost sink i = none :=
            patchCostSlot_none_of_bad cost sink i (fun v hv => hex ⟨v, hv⟩)
          rw [hstep]
          rfl

/-- C8: under the reachable-state facts that the recorded positions are
distinct and all hold `WasmOwned(I64Const)` events, `set_costs` replaces each
recorded entry `I64Const v` by `I64Const (v + current_block_cost)`, leaves
every other position untouched, zeroes `current_block_cost` and does not clear
`cost_operator_idxs`; and if any recorded position holds any other kind of
event, it aborts instead of producing output. -/
theorem set_costs_patches_exactly_or_aborts (m : Metering) (sink : List Event) :
    (m.cost_operator_idxs.Nodup →
     (∀ i ∈ m.cost_operator_idxs, ∃ v : Int,
        sink[i]? = some (Event.WasmOwned (Operator.I64Const v))) →
     ∃ sink',
       m.set_costs sink =
         some ({ m with current_block_cost := 0,
                        ghost_patched := m.ghost_patched +
                          m.current_block_cost * m.cost_operator_idxs.length }, sink') ∧
       sink'.length = sink.length ∧
       (∀ j, j ∉ m.cost_operator_idxs → sink'[j]? = sink[j]?) ∧
       (∀ j ∈ m.cost_operator_idxs, ∀ v : Int,
          sink[j]? = some (Event.WasmOwned (Operator.I64Const v)) →
          sink'[j]? = some (Event.WasmOwned
            (Operator.I64Const (v + (m.current_block_cost : Int)))))) ∧
    ((∃ i ∈ m.cost_operator_idxs, ∀ v : Int,
        sink[i]? ≠ some (Event.WasmOwned (Operator.I64Const v))) →
     m.set_costs sink = none) := by
  constructor
  · intro hnd hok
    obtain ⟨sink', hfold, hlen, hout, hin⟩ :=
      foldlM_patch_nodup m.current_block_cost m.cost_operator_idxs sink hnd hok
    exact ⟨sink', by simp [Metering.set_costs, hfold], hlen, hout, hin⟩
  · intro hbad
    simp [Metering.set_costs, foldlM_patch_fails _ _ _ hbad]

/-- Witness for C8: a concrete successful patch and a concrete abort. -/
theorem set_costs_patches_exactly_or_aborts_witness :
    (∃ sink',
       Metering.set_costs
         { cost_operator_idxs := [1], current_block_cost := 3,
           ghost_recorded := [1], ghost_patched := 0 }
         [Event.Internal (InternalEvent.FunctionBegin 0),
          Event.WasmOwned (Operator.I64Const 5)] =
         some ({ cost_operator_idxs := [1], current_block_cost := 0,
                 ghost_recorded := [1], ghost_patched := 0 + 3 * 1 }, sink') ∧
       sink'[1]? = some (Event.WasmOwned (Operator.I64Const (5 + (3 : Int))))) ∧
    Metering.set_costs
      { cost_operator_idxs := [0], current_block_cost := 3,
        ghost_recorded := [0], ghost_patched := 0 }
      [Event.Internal (InternalEvent.FunctionBegin 0),
       Event.WasmOwned (Operator.I64Const 5)] = none := by
  constructor
  · obtain ⟨sink', hs, _, _, hin⟩ :=
      (set_costs_patches_exactly_or_aborts
        { cost_operator_idxs := [1], current_block_cost := 3,
          ghost_recorded := [1], ghost_patched := 0 }
        [Event.Internal (InternalEvent.FunctionBegin 0),
         Event.WasmOwned (Operator.I64Const 5)]).1
        (by decide)
        (by
          intro i hi
          simp only [List.mem_singleton] at hi
          subst hi
          exact ⟨5, rfl⟩)
    exact ⟨sink', hs, hin 1 (by decide) 5 rfl⟩
  · exact (set_costs_patches_exactly_or_aborts
      { cost_operator_idxs := [0], current_block_cost := 3,
        ghost_recorded := [0], ghost_patched := 0 }
      [Event.Internal (InternalEvent.FunctionBegin 0),
       Event.WasmOwned (Operator.I64Const 5)]).2
      ⟨0, by decide, by intro v h; simpa using h⟩

/-- `inject_metering` appends exactly the prelude and records the slot. -/
theorem inject_metering_eq (m : Metering) (sink : List Event) :
    m.inject_metering sink =
      ({ m with cost_operator_idxs := m.cost_operator_idxs ++ [sink.length + 1],
                ghost_recorded := m.ghost_recorded ++ [sink.length + 1] },
       sink ++ preludeEvents 0) := by
  simp [Metering.inject_metering, preludeEvents]

/-- `feed_event` on a Wasm operator event, rewritten through the
specification's boundary predicates: the code's two `match`es dispatch exactly
on `isTerminatorSpec` and `isOpenerSpec`. -/
theorem feed_event_wasm_eq (m : Metering) (sink : List Event) (op : Operator)
    (w : Operator → Event) (hw : w = Event.Wasm ∨ w = Event.WasmOwned) :
    m.feed_event (w op) sink = (do
      let m := m.increment_cost (w op)
      let (m, sink) ← if isTerminatorSpec op then m.end_ sink else some (m, sink)
      let op_idx := sink.length
      let sink := sink ++ [Event.WasmOwned Operator.Unreachable]
      let (m, sink) ← if isOpenerSpec op then m.begin sink else some (m, sink)
      some (m, sink.set op_idx (w op))) := by
  rcases hw with hw | hw <;> subst hw <;> cases op <;> rfl

/-- `set_costs` under `SlotsOk`: it succeeds, zeroes the block cost, keeps the
recorded list and the ghost history, preserves the sink length, leaves
unrecorded positions untouched, and grows each recorded slot by at least the
block cost. -/
theorem set_costs_spec (m : Metering) (sink : List Event) (hok : SlotsOk m sink) :
    ∃ m' sink',
      m.set_costs sink = some (m', sink') ∧
      m'.cost_operator_idxs = m.cost_operator_idxs ∧
      m'.current_block_cost = 0 ∧
      m'.ghost_recorded = m.ghost_recorded ∧
      m'.ghost_patched = m.ghost_patched +
        m.current_block_cost * m.cost_operator_idxs.length ∧
      sink'.length = sink.length ∧
      (∀ j, j ∉ m.cost_operator_idxs → sink'[j]? = sink[j]?) ∧
      (∀ j ∈ m.cost_operator_idxs, ∀ v : Int,
        sink[j]? = some (Event.WasmOwned (Operator.I64Const v)) →
        ∃ u : Int, sink'[j]? = some (Event.WasmOwned (Operator.I64Const u)) ∧
          v + m.current_block_cost ≤ u) := by
  obtain ⟨sink', hfold, hlen, hout, hin⟩ :=
    foldlM_patch_spec m.current_block_cost m.cost_operator_idxs sink hok
  refine ⟨{ m with current_block_cost := 0, ghost_patched := m.ghost_patched + m.current_block_cost * m.cost_operator_idxs.length }, sink', ?_, rfl, rfl, rfl, rfl, hlen, hout, hin⟩
  simp [Metering.set_costs, hfold]

/-- `end_` under `SlotsOk`: `set_costs`, then clear the recorded list. -/
theorem end_spec (m : Metering) (sink : List Event) (hok : SlotsOk m sink) :
    ∃ m' sink',
      m.end_ sink = some (m', sink') ∧
      m'.cost_operator_idxs = [] ∧
      m'.current_block_cost = 0 ∧
      m'.ghost_recorded = m.ghost_recorded ∧
      m'.ghost_patched = m.ghost_patched +
        m.current_block_cost * m.cost_operator_idxs.length ∧
      sink'.length = sink.length ∧
      (∀ j, j ∉ m.cost_operator_idxs → sink'[j]? = sink[j]?) ∧
      (∀ j ∈ m.cost_operator_idxs, ∀ v : Int,
        sink[j]? = some (Event.WasmOwned (Operator.I64Const v)) →
        ∃ u : Int, sink'[j]? = some (Event.WasmOwned (Operator.I64Const u)) ∧
          v + m.current_block_cost ≤ u) := by
  obtain ⟨sink', hfold, hlen, hout, hin⟩ :=
    foldlM_patch_spec m.current_block_cost m.cost_operator_idxs sink hok
  refine ⟨{ m with cost_operator_idxs := [], current_block_cost := 0, ghost_patched := m.ghost_patched + m.current_block_cost * m.cost_operator_idxs.length }, sink', ?_, rfl, rfl, rfl, rfl, hlen, hout, hin⟩
  simp [Metering.end_, Metering.set_costs, hfold]

/-- `begin` under `SlotsOk`: `set_costs`, then append a fresh prelude whose
slot index `sink.length + 1` is recorded. -/
theorem begin_spec (m : Metering) (sink : List Event) (hok : SlotsOk m sink) :
    ∃ m' base,
      m.begin sink = some (m', base ++ preludeEvents 0) ∧
      m'.cost_operator_idxs = m.cost_operator_idxs ++ [sink.length + 1] ∧
      m'.current_block_cost = 0 ∧
      m'.ghost_recorded = m.ghost_recorded ++ [sink.length + 1] ∧
      m'.ghost_patched = m.ghost_patched +
        m.current_block_cost * m.cost_operator_idxs.length ∧
      base.length = sink.length ∧
      (∀ j, j ∉ m.cost_operator_idxs → base[j]? = sink[j]?) ∧
      (∀ j ∈ m.cost_operator_idxs, ∀ v : Int,
        sink[j]? = some (Event.WasmOwned (Operator.I64Const v)) →
        ∃ u : Int, base[j]? = some (Event.WasmOwned (Operator.I64Const u)) ∧
          v + m.current_block_cost ≤ u) := by
  obtain ⟨sink', hfold, hlen, hout, hin⟩ :=
    foldlM_patch_spec m.current_block_cost m.cost_operator_idxs sink hok
  refine ⟨{ m with cost_operator_idxs := m.cost_operator_idxs ++ [sink.length + 1], current_block_cost := 0, ghost_recorded := m.ghost_recorded ++ [sink.length + 1], ghost_patched := m.ghost_patched + m.current_block_cost * m.cost_operator_idxs.length }, sink', ?_, rfl, rfl, rfl, rfl, hlen, hout, hin⟩
  simp [Metering.begin, Metering.set_costs, hfold, inject_metering_eq, hlen]

/-- Overwriting the reserved slot: setting position `a.length` of
`a ++ [x] ++ b` yields `a ++ [y] ++ b`. -/
theorem set_at_reserved (a b : List Event) (x y : Event) :
    (a ++ [x] ++ b).set a.length y = a ++ [y] ++ b := by
  rw [List.append_assoc, List.set_append]
  simp

/-- A list of length `L + 1` whose last entry is `x` splits as
`take L ++ [x]`. -/
theorem eq_take_append_last (l : List Event) (L : Nat) (x : Event)
    (hlen : l.length = L + 1) (hx : l[L]? = some x) :
    l = l.take L ++ [x] := by
  apply List.ext_getElem?
  intro n
  rw [List.getElem?_append]
  have hL : (l.take L).length = L := by rw [List.length_take]; omega
  rw [hL]
  by_cases h : n < L
  · rw [if_pos h, List.getElem?_take, if_pos h]
  · rw [if_neg h]
    by_cases h2 : n = L
    · subst h2
      simp [hx]
    · rw [List.getElem?_eq_none (by omega : l.length ≤ n),
          List.getElem?_eq_none (by simp; omega : ([x] : List Event).length ≤ n - L)]

/-- `SlotsOk` is stable under appending to the sink. -/
theorem SlotsOk_append_sink (m : Metering) (sink l : List Event)
    (hok : SlotsOk m sink) : SlotsOk m (sink ++ l) := by
  intro i hi
  obtain ⟨v, hv⟩ := hok i hi
  refine ⟨v, ?_⟩
  rw [List.getElem?_append, if_pos (List.getElem?_eq_some.mp hv).1]
  exact hv

/-- `set_at_reserved` with the overwritten position given abstractly. -/
theorem set_at_reserved' (a b : List Event) (x y : Event) (L : Nat)
    (hL : L = a.length) :
    (a ++ [x] ++ b).set L y = a ++ [y] ++ b := by
  subst hL
  exact set_at_reserved a b x y

/-- Full characterization of one `feed_event` step on a Wasm operator event
(borrowed or owned): the current block is closed (slots back-patched, list
cleared, cost zeroed) exactly on terminator kinds, a prelude is injected right
after the forwarded operator exactly on opener kinds, and a plain operator is
forwarded unchanged with only the block cost incremented. -/
theorem feed_wasm_step_spec (m : Metering) (sink : List Event) (op : Operator)
    (w : Operator → Event) (hw : w = Event.Wasm ∨ w = Event.WasmOwned)
    (hok : SlotsOk m sink) :
    ∃ base m',
      m.feed_event (w op) sink =
        some (m', base ++ w op :: (if isOpenerSpec op then preludeEvents 0 else [])) ∧
      base.length = sink.length ∧
      (∀ j, j ∉ m.cost_operator_idxs → base[j]? = sink[j]?) ∧
      ((isTerminatorSpec op || isOpenerSpec op) = false → base = sink) ∧
      (∀ j ∈ m.cost_operator_idxs, ∀ v : Int,
        sink[j]? = some (Event.WasmOwned (Operator.I64Const v)) →
        ∃ u : Int, base[j]? = some (Event.WasmOwned (Operator.I64Const u)) ∧
          ((isTerminatorSpec op || isOpenerSpec op) = true →
            v + (m.current_block_cost + 1) ≤ u) ∧
          ((isTerminatorSpec op || isOpenerSpec op) = false → u = v)) ∧
      m'.cost_operator_idxs =
        (if isTerminatorSpec op then [] else m.cost_operator_idxs) ++
          (if isOpenerSpec op then [sink.length + 2] else []) ∧
      m'.current_block_cost =
        (if isTerminatorSpec op || isOpenerSpec op then 0
         else m.current_block_cost + 1) ∧
      m'.ghost_recorded =
        m.ghost_recorded ++ (if isOpenerSpec op then [sink.length + 2] else []) ∧
      m'.ghost_patched =
        m.ghost_patched +
          (if isTerminatorSpec op || isOpenerSpec op then
            (m.current_block_cost + 1) * m.cost_operator_idxs.length
           else 0) := by
  rw [feed_event_wasm_eq m sink op w hw]
  have hokInc : SlotsOk (m.increment_cost (w op)) sink := hok
  by_cases hT : isTerminatorSpec op
  · obtain ⟨m₁, s₁, hend, h1i, h1c, h1r, h1p, hlen₁, hout₁, hin₁⟩ :=
      end_spec (m.increment_cost (w op)) sink hokInc
    by_cases hO : isOpenerSpec op
    · -- terminator and opener: End, If, Else, BrIf
      have hok₁ : SlotsOk m₁ (s₁ ++ [Event.WasmOwned Operator.Unreachable]) := by
        intro i hi
        rw [h1i] at hi
        exact absurd hi (List.not_mem_nil i)
      obtain ⟨m₂, base₂, hbeg, h2i, h2c, h2r, h2p, hlen₂, hout₂, hin₂⟩ :=
        begin_spec m₁ (s₁ ++ [Event.WasmOwned Operator.Unreachable]) hok₁
      have hbase₂ : base₂ = s₁ ++ [Event.WasmOwned Operator.Unreachable] :=
        List.ext_getElem? fun n => hout₂ n (by rw [h1i]; exact List.not_mem_nil n)
      subst hbase₂
      refine ⟨s₁, m₂, ?_, hlen₁, hout₁, by simp [hT], ?_, ?_, ?_, ?_, ?_⟩
      · simp only [hT, hO, if_true, Option.bind_eq_bind, hend, Option.some_bind, hbeg]
        rw [set_at_reserved s₁ (preludeEvents 0) (Event.WasmOwned Operator.Unreachable) (w op)]
        simp [List.append_assoc]
      · intro j hj v hv
        obtain ⟨u, hu, hle⟩ := hin₁ j hj v hv
        exact ⟨u, hu, fun _ => hle, fun hc => by simp [hT] at hc⟩
      · rw [h2i, h1i, List.length_append, hlen₁]
        simp [hT, hO]
      · simp [hT, hO, h2c]
      · rw [h2r, h1r, List.length_append, hlen₁]
        simp [hO, Metering.increment_cost]
      · rw [h2p, h1p, h1c, h1i]
        simp [hT, hO, Metering.increment_cost]
    · -- terminator only: Br, BrTable, Return
      refine ⟨s₁, m₁, ?_, hlen₁, hout₁, by simp [hT], ?_, ?_, ?_, ?_, ?_⟩
      · simp only [hT, hO, if_true, if_false, Option.bind_eq_bind, hend, Option.some_bind]
        have hset := set_at_reserved s₁ [] (Event.WasmOwned Operator.Unreachable) (w op)
        simp only [List.append_nil] at hset
        rw [hset]
        simp
      · intro j hj v hv
        obtain ⟨u, hu, hle⟩ := hin₁ j hj v hv
        exact ⟨u, hu, fun _ => hle, fun hc => by simp [hT] at hc⟩
      · simp [hT, hO, h1i]
      · simp [hT, hO, h1c]
      · simp [hO, h1r, Metering.increment_cost]
      · rw [h1p]
        simp [hT, Metering.increment_cost]
  · by_cases hO : isOpenerSpec op
    · -- opener only: Loop
      have hokApp : SlotsOk (m.increment_cost (w op))
          (sink ++ [Event.WasmOwned Operator.Unreachable]) :=
        SlotsOk_append_sink _ _ _ hokInc
      obtain ⟨m₂, base₂, hbeg, h2i, h2c, h2r, h2p, hlen₂, hout₂, hin₂⟩ :=
        begin_spec (m.increment_cost (w op))
          (sink ++ [Event.WasmOwned Operator.Unreachable]) hokApp
      have hidxlt : ∀ i ∈ m.cost_operator_idxs, i < sink.length := by
        intro i hi
        obtain ⟨v, hv⟩ := hok i hi
        exact (List.getElem?_eq_some.mp hv).1
      have hlen₂' : base₂.length = sink.length + 1 := by
        rw [hlen₂, List.length_append, List.length_singleton]
      have hlast : base₂[sink.length]? = some (Event.WasmOwned Operator.Unreachable) := by
        rw [hout₂ sink.length (fun hh => absurd (hidxlt _ hh) (lt_irrefl _)),
            List.getElem?_concat_length]
      have hsplit : base₂ = base₂.take sink.length ++ [Event.WasmOwned Operator.Unreachable] :=
        eq_take_append_last base₂ sink.length (Event.WasmOwned Operator.Unreachable)
          hlen₂' hlast
      have htl : (base₂.take sink.length).length = sink.length := by
        rw [List.length_take]
        omega
      refine ⟨base₂.take sink.length, m₂, ?_, htl, ?_, by simp [hO], ?_, ?_, ?_, ?_, ?_⟩
      · simp only [hT, hO, if_true, if_false, Option.bind_eq_bind, Option.some_bind, hbeg]
        conv_lhs => rw [hsplit]
        rw [set_at_reserved' (base₂.take sink.length) (preludeEvents 0)
          (Event.WasmOwned Operator.Unreachable) (w op) sink.length htl.symm]
        simp [List.append_assoc]
      · intro j hj
        by_cases hjL : j < sink.length
        · rw [List.getElem?_take, if_pos hjL, hout₂ j hj, List.getElem?_append,
              if_pos hjL]
        · rw [List.getElem?_eq_none (by omega : sink.length ≤ j),
              List.getElem?_eq_none]
          rw [List.length_take]
          omega
      · intro j hj v hv
        have hjL : j < sink.length := hidxlt j hj
        have hv₂ : (sink ++ [Event.WasmOwned Operator.Unreachable])[j]? =
            some (Event.WasmOwned (Operator.I64Const v)) := by
          rw [List.getElem?_append, if_pos hjL]
          exact hv
        obtain ⟨u, hu, hle⟩ := hin₂ j hj v hv₂
        refine ⟨u, ?_, fun _ => hle, fun hc => by simp [hO] at hc⟩
        rw [List.getElem?_take, if_pos hjL]
        exact hu
      · rw [h2i, List.length_append, List.length_singleton]
        simp [hT, hO, Metering.increment_cost]
      · simp [hT, hO, h2c]
      · rw [h2r, List.length_append, List.length_singleton]
        simp [hO, Metering.increment_cost]
      · rw [h2p]
        simp [hT, hO, Metering.increment_cost]
    · -- neither: Block and every plain operator
      refine ⟨sink, m.increment_cost (w op), ?_, rfl, fun j _ => rfl, fun _ => rfl,
        ?_, ?_, ?_, ?_, ?_⟩
      · simp only [hT, hO, if_false, Option.bind_eq_bind, Option.some_bind]
        have hset := set_at_reserved sink [] (Event.WasmOwned Operator.Unreachable) (w op)
        simp only [List.append_nil] at hset
        rw [hset]
        simp
      · intro j hj v hv
        exact ⟨v, hv, fun hc => by simp [hT, hO] at hc, fun _ => rfl⟩
      · simp [hT, hO, Metering.increment_cost]
      · simp [hT, hO, Metering.increment_cost]
      · simp [hO, Metering.increment_cost]
      · simp [hT, hO, Metering.increment_cost]

/-- C3: for a Wasm operator event the current block is closed (every recorded
slot back-patched with the running cost, `current_block_cost` zeroed,
`cost_operator_idxs` cleared) exactly when the operator's kind is a terminator
(`End`, `If`, `Else`, `Br`, `BrIf`, `BrTable`, `Return`); a prelude is pushed
immediately after the forwarded operator exactly when its kind is an opener
(`Loop`, `End`, `If`, `Else`, `BrIf`); a `Block` (neither kind) is forwarded
with only the cost incremented; and every internal event other than
`FunctionBegin`/`FunctionEnd` is forwarded unchanged. -/
theorem feed_event_boundary_policy :
    (∀ (m : Metering) (sink : List Event) (op : Operator) (w : Operator → Event),
      (w = Event.Wasm ∨ w = Event.WasmOwned) → SlotsOk m sink →
      ∃ base m',
        m.feed_event (w op) sink =
          some (m', base ++ w op :: (if isOpenerSpec op then preludeEvents 0 else [])) ∧
        base.length = sink.length ∧
        ((isTerminatorSpec op || isOpenerSpec op) = false → base = sink) ∧
        (∀ j ∈ m.cost_operator_idxs, ∀ v : Int,
          sink[j]? = some (Event.WasmOwned (Operator.I64Const v)) →
          ∃ u : Int, base[j]? = some (Event.WasmOwned (Operator.I64Const u)) ∧
            (isTerminatorSpec op = true → v + (m.current_block_cost + 1) ≤ u)) ∧
        m'.cost_operator_idxs =
          (if isTerminatorSpec op then [] else m.cost_operator_idxs) ++
            (if isOpenerSpec op then [sink.length + 2] else []) ∧
        m'.current_block_cost =
          (if isTerminatorSpec op || isOpenerSpec op then 0
           else m.current_block_cost + 1)) ∧
    (∀ (m : Metering) (sink : List Event) (iev : InternalEvent),
      (∀ n, iev ≠ InternalEvent.FunctionBegin n) →
      iev ≠ InternalEvent.FunctionEnd →
      m.feed_event (Event.Internal iev) sink =
        some ({ m with current_block_cost := m.current_block_cost + 1 },
              sink ++ [Event.Internal iev])) := by
  constructor
  · intro m sink op w hw hok
    obtain ⟨base, m', hfeed, hlen, hout, hbase, hin, hidx, hcost, _, _⟩ :=
      feed_wasm_step_spec m sink op w hw hok
    refine ⟨base, m', hfeed, hlen, hbase, ?_, hidx, hcost⟩
    intro j hj v hv
    obtain ⟨u, hu, hgrow, _⟩ := hin j hj v hv
    exact ⟨u, hu, fun hTt => hgrow (by simp [hTt])⟩
  · intro m sink iev h1 h2
    cases iev with
    | FunctionBegin n => exact absurd rfl (h1 n)
    | FunctionEnd => exact absurd rfl h2
    | GetInternal f => rfl
    | SetInternal f => rfl
    | Breakpoint r => rfl
    | OtherInternal c => rfl

/-- Witness for C3: the boundary policy applied to a concrete terminator event
on a fresh state, and a concrete forwarded internal event. -/
theorem feed_event_boundary_policy_witness :
    (Metering.new.feed_event (Event.WasmOwned Operator.End) []).isSome = true ∧
    Metering.new.feed_event (Event.Internal (InternalEvent.OtherInternal 0)) [] =
      some ({ Metering.new with
                current_block_cost := Metering.new.current_block_cost + 1 },
            [] ++ [Event.Internal (InternalEvent.OtherInternal 0)]) := by
  constructor
  · obtain ⟨base, m', hfeed, _⟩ :=
      feed_event_boundary_policy.1 Metering.new [] Operator.End Event.WasmOwned
        (Or.inr rfl) (fun i hi => absurd hi (List.not_mem_nil i))
    rw [hfeed]
    rfl
  · exact feed_event_boundary_policy.2 Metering.new []
      (InternalEvent.OtherInternal 0) (fun n h => by cases h) (fun h => by cases h)

/-- C4, amended: at every terminator boundary `cost_operator_idxs` is drained
and emptied before the following prelude (if any) records its single new slot;
but at a `Loop` boundary (an opener that is not a terminator) `set_costs`
back-patches the recorded slots without emptying the list, so the stale
indices of enclosing blocks remain in front of the newly injected slot. -/
theorem terminator_drains_loop_retains :
    (∀ (m : Metering) (sink : List Event) (op : Operator) (w : Operator → Event),
      (w = Event.Wasm ∨ w = Event.WasmOwned) → SlotsOk m sink →
      isTerminatorSpec op = true →
      ∃ m' sink',
        m.feed_event (w op) sink = some (m', sink') ∧
        m'.cost_operator_idxs =
          (if isOpenerSpec op then [sink.length + 2] else [])) ∧
    (∀ (m : Metering) (sink : List Event) (ty : WpTypeOrFuncType)
       (w : Operator → Event),
      (w = Event.Wasm ∨ w = Event.WasmOwned) → SlotsOk m sink →
      ∃ m' sink',
        m.feed_event (w (Operator.Loop ty)) sink = some (m', sink') ∧
        m'.cost_operator_idxs = m.cost_operator_idxs ++ [sink.length + 2]) := by
  constructor
  · intro m sink op w hw hok hT
    obtain ⟨base, m', hfeed, _, _, _, _, hidx, _, _, _⟩ :=
      feed_wasm_step_spec m sink op w hw hok
    exact ⟨m', _, hfeed, by rw [hidx]; simp [hT]⟩
  · intro m sink ty w hw hok
    obtain ⟨base, m', hfeed, _, _, _, _, hidx, _, _, _⟩ :=
      feed_wasm_step_spec m sink (Operator.Loop ty) w hw hok
    exact ⟨m', _, hfeed, by rw [hidx]; rfl⟩

/-- Witness for the amended C4: a concrete `Return` (terminator, not opener)
empties the list, and a concrete `Loop` retains the stale slot 2. -/
theorem terminator_drains_loop_retains_witness :
    (∃ m' sink',
      Metering.feed_event
        { cost_operator_idxs := [2], current_block_cost := 0,
          ghost_recorded := [2], ghost_patched := 0 }
        (Event.WasmOwned Operator.Return)
        (Event.Internal (InternalEvent.FunctionBegin 0) :: preludeEvents 0) =
          some (m', sink') ∧
      m'.cost_operator_idxs =
        (if isOpenerSpec Operator.Return then
          [(Event.Internal (InternalEvent.FunctionBegin 0) :: preludeEvents 0).length + 2]
         else [])) ∧
    (∃ m' sink',
      Metering.feed_event
        { cost_operator_idxs := [2], current_block_cost := 0,
          ghost_recorded := [2], ghost_patched := 0 }
        (Event.WasmOwned (Operator.Loop (WpTypeOrFuncType.Type WpType.EmptyBlockType)))
        (Event.Internal (InternalEvent.FunctionBegin 0) :: preludeEvents 0) =
          some (m', sink') ∧
      m'.cost_operator_idxs = [2] ++
        [(Event.Internal (InternalEvent.FunctionBegin 0) :: preludeEvents 0).length + 2]) := by
  constructor
  · exact terminator_drains_loop_retains.1
      { cost_operator_idxs := [2], current_block_cost := 0,
        ghost_recorded := [2], ghost_patched := 0 }
      (Event.Internal (InternalEvent.FunctionBegin 0) :: preludeEvents 0)
      Operator.Return Event.WasmOwned (Or.inr rfl)
      (by intro i hi; simp only [List.mem_singleton] at hi; subst hi; exact ⟨0, rfl⟩)
      rfl
  · exact terminator_drains_loop_retains.2
      { cost_operator_idxs := [2], current_block_cost := 0,
        ghost_recorded := [2], ghost_patched := 0 }
      (Event.Internal (InternalEvent.FunctionBegin 0) :: preludeEvents 0)
      (WpTypeOrFuncType.Type WpType.EmptyBlockType) Event.WasmOwned (Or.inr rfl)
      (by intro i hi; simp only [List.mem_singleton] at hi; subst hi; exact ⟨0, rfl⟩)

/-- `feed_event` on `FunctionBegin`: forward, then `begin`. -/
theorem feed_event_FB_eq (m : Metering) (sink : List Event) (fid : Nat) :
    m.feed_event (Event.Internal (InternalEvent.FunctionBegin fid)) sink =
      (m.increment_cost (Event.Internal (InternalEvent.FunctionBegin fid))).begin
        (sink ++ [Event.Internal (InternalEvent.FunctionBegin fid)]) := rfl

/-- `feed_event` on `FunctionEnd`: `end_`, strip, then forward. -/
theorem feed_event_FE_eq (m : Metering) (sink : List Event) :
    m.feed_event (Event.Internal InternalEvent.FunctionEnd) sink = (do
      let (m₁, sink₁) ←
        (m.increment_cost (Event.Internal InternalEvent.FunctionEnd)).end_ sink
      let sink₂ ← Metering.remove_trailing_injection sink₁
      some (m₁, sink₂ ++ [Event.Internal InternalEvent.FunctionEnd])) := rfl

/-- Unfolding `feedEvents` one event at a time. -/
theorem feedEvents_cons (m : Metering) (sink : List Event) (ev : Event)
    (rest : List Event) :
    feedEvents m sink (ev :: rest) =
      (m.feed_event ev sink).bind fun p => feedEvents p.1 p.2 rest := by
  cases h : m.feed_event ev sink with
  | none => simp [feedEvents, h]
  | some p => cases p with
    | mk m' sink' => simp [feedEvents, h]

/-- `feedEvents` over a concatenation. -/
theorem feedEvents_append (l₁ l₂ : List Event) :
    ∀ (m : Metering) (sink : List Event),
      feedEvents m sink (l₁ ++ l₂) =
        (feedEvents m sink l₁).bind fun p => feedEvents p.1 p.2 l₂ := by
  induction l₁ with
  | nil => intro m sink; simp [feedEvents]
  | cons ev rest ih =>
      intro m sink
      rw [List.cons_append, feedEvents_cons, feedEvents_cons]
      cases h : m.feed_event ev sink with
      | none => rfl
      | some p => simp only [Option.some_bind]; exact ih p.1 p.2

/-- A plain operator (neither terminator nor opener) is forwarded unchanged
with only the block cost incremented. -/
theorem feed_simple (m : Metering) (sink : List Event) (op : Operator)
    (w : Operator → Event) (hw : w = Event.Wasm ∨ w = Event.WasmOwned)
    (hT : isTerminatorSpec op = false) (hO : isOpenerSpec op = false) :
    m.feed_event (w op) sink =
      some ({ m with current_block_cost := m.current_block_cost + 1 },
            sink ++ [w op]) := by
  rw [feed_event_wasm_eq m sink op w hw]
  simp only [hT, hO, Bool.false_eq_true, if_false, Option.bind_eq_bind,
    Option.some_bind]
  have hset := set_at_reserved sink [] (Event.WasmOwned Operator.Unreachable) (w op)
  simp only [List.append_nil] at hset
  rw [hset]
  rfl

/-- Running a straight-line segment of plain operators only accumulates cost
and forwards the operators. -/
theorem feedEvents_simple :
    ∀ (ops : List Operator),
      (∀ op ∈ ops, isTerminatorSpec op = false ∧ isOpenerSpec op = false) →
      ∀ (m : Metering) (sink : List Event),
        feedEvents m sink (ops.map Event.WasmOwned) =
          some ({ m with current_block_cost := m.current_block_cost + ops.length },
                sink ++ ops.map Event.WasmOwned) := by
  intro ops
  induction ops with
  | nil =>
      intro _ m sink
      simp [feedEvents]
  | cons op rest ih =>
      intro h m sink
      rw [List.map_cons, feedEvents_cons,
        feed_simple m sink op Event.WasmOwned (Or.inr rfl)
          (h op (List.mem_cons_self _ _)).1 (h op (List.mem_cons_self _ _)).2]
      simp only [Option.some_bind]
      rw [ih (fun o ho => h o (List.mem_cons_of_mem _ ho))]
      simp [List.append_assoc]
      omega

/-- The `FunctionBegin` step from the fresh state. -/
theorem feed_FB_new (fid : Nat) :
    Metering.new.feed_event (Event.Internal (InternalEvent.FunctionBegin fid)) [] =
      some ({ cost_operator_idxs := [2], current_block_cost := 0,
              ghost_recorded := [2], ghost_patched := 0 },
            Event.Internal (InternalEvent.FunctionBegin fid) :: preludeEvents 0) := rfl

/-- C1, amended: for straight-line bodies — `FunctionBegin`, then operators
that are neither openers nor terminators, then `End`, then `FunctionEnd` —
the total of all values back-patched into cost slots (`ghost_patched`) equals
the number of events fed after `FunctionBegin`, i.e. the operator count plus
two; `FunctionBegin`'s own `increment_cost` call is discarded by the first
`set_costs`, and is not reflected in any slot. -/
theorem straightline_sum_counts_events_after_begin (fid : Nat)
    (ops : List Operator)
    (hsimple : ∀ op ∈ ops, isTerminatorSpec op = false ∧ isOpenerSpec op = false) :
    ∃ p, runMetering
        (Event.Internal (InternalEvent.FunctionBegin fid) ::
          (ops.map Event.WasmOwned ++
            [Event.WasmOwned Operator.End,
             Event.Internal InternalEvent.FunctionEnd])) = some p ∧
      p.1.ghost_patched = ops.length + 2 := by
  unfold runMetering
  rw [feedEvents_cons, feed_FB_new fid, Option.some_bind]
  rw [feedEvents_append, feedEvents_simple ops hsimple _ _, Option.some_bind]
  set m₂ : Metering :=
    { cost_operator_idxs := [2],
      current_block_cost := (0 : Nat) + ops.length,
      ghost_recorded := [2], ghost_patched := 0 } with hm₂
  set sink₂ : List Event :=
    (Event.Internal (InternalEvent.FunctionBegin fid) :: preludeEvents 0) ++
      ops.map Event.WasmOwned with hsink₂
  have hlen₂ : sink₂.length = 11 + ops.length := by
    simp [hsink₂, preludeEvents]
    omega
  have hok₂ : SlotsOk m₂ sink₂ := by
    intro i hi
    simp only [hm₂, List.mem_singleton] at hi
    subst hi
    refine ⟨0, ?_⟩
    rw [hsink₂, List.getElem?_append]
    norm_num [preludeEvents]
  rw [feedEvents_cons]
  obtain ⟨base, m₃, hfeedEnd, hlenB, houtB, _, _, hidx₃, hcost₃, hgr₃, hgp₃⟩ :=
    feed_wasm_step_spec m₂ sink₂ Operator.End Event.WasmOwned (Or.inr rfl) hok₂
  rw [hfeedEnd, Option.some_bind]
  simp only [show isOpenerSpec Operator.End = true from rfl, if_true]
  simp only [show isOpenerSpec Operator.End = true from rfl,
    show isTerminatorSpec Operator.End = true from rfl, if_true, Bool.true_or,
    List.nil_append] at hidx₃ hcost₃ hgp₃
  set sink₃ : List Event :=
    base ++ Event.WasmOwned Operator.End :: preludeEvents 0 with hsink₃
  have hlen₃ : sink₃.length = 22 + ops.length := by
    simp only [hsink₃, List.length_append, List.length_cons, hlenB, hlen₂,
      preludeEvents, List.length_nil]
    omega
  have hok₃ : SlotsOk m₃ sink₃ := by
    intro i hi
    rw [hidx₃] at hi
    simp only [List.nil_append, List.mem_singleton] at hi
    subst hi
    refine ⟨0, ?_⟩
    rw [hsink₃, List.getElem?_append_right (by omega : base.length ≤ sink₂.length + 2)]
    have : sink₂.length + 2 - base.length = 2 := by
      rw [hlenB]
      omega
    rw [this]
    rfl
  rw [feedEvents_cons, feed_event_FE_eq]
  obtain ⟨m₄, s₄, hend, h4i, h4c, h4r, h4p, hlen₄, hout₄, _⟩ :=
    end_spec (m₃.increment_cost (Event.Internal InternalEvent.FunctionEnd)) sink₃ hok₃
  have hlookup : s₄[11 + ops.length]? = some (Event.WasmOwned Operator.End) := by
    rw [hout₄ (11 + ops.length)
      (by simp only [Metering.increment_cost, hidx₃, List.mem_singleton]; omega)]
    rw [hsink₃, List.getElem?_append_right (by omega : base.length ≤ 11 + ops.length)]
    have : 11 + ops.length - base.length = 0 := by
      rw [hlenB, hlen₂]
      omega
    rw [this]
    rfl
  have hs₄len : s₄.length = 22 + ops.length := by rw [hlen₄, hlen₃]
  have hstrip : Metering.remove_trailing_injection s₄ =
      some (s₄.take (s₄.length - 10)) := by
    unfold Metering.remove_trailing_injection
    rw [if_neg (by omega : ¬ s₄.length < 11)]
    have : s₄.length - 11 = 11 + ops.length := by omega
    rw [this, hlookup]
  simp only [Option.bind_eq_bind, hend, Option.some_bind, hstrip]
  refine ⟨_, rfl, ?_⟩
  simp only [Metering.increment_cost] at h4p
  rw [h4p, hgp₃, hidx₃, hcost₃]
  simp

/-- Witness for the amended C1: a two-operator straight-line body, total
back-patched cost 4 = 2 operators + `End` + `FunctionEnd`. -/
theorem straightline_sum_counts_events_after_begin_witness :
    ∃ p, runMetering
        (Event.Internal (InternalEvent.FunctionBegin 0) ::
          ([Operator.Nop, Operator.Drop].map Event.WasmOwned ++
            [Event.WasmOwned Operator.End,
             Event.Internal InternalEvent.FunctionEnd])) = some p ∧
      p.1.ghost_patched = [Operator.Nop, Operator.Drop].length + 2 :=
  straightline_sum_counts_events_after_begin 0 [Operator.Nop, Operator.Drop]
    (by decide)

/-- The invariant implies the `set_costs` precondition. -/
theorem SlotsOk_of_GhostOk (m : Metering) (sink : List Event)
    (hg : GhostOk m sink) : SlotsOk m sink := by
  obtain ⟨hA, hP, hB, hE⟩ := hg
  intro i hi
  obtain ⟨v, hv, _, _⟩ := hB i (hA i hi)
  exact ⟨v, hv⟩

/-- Every ever-recorded position lies inside the sink. -/
theorem ghost_lt_length (m : Metering) (sink : List Event)
    (hg : GhostOk m sink) (i : Nat) (hi : i ∈ m.ghost_recorded) :
    i < sink.length := by
  obtain ⟨v, hv, _, _⟩ := hg.2.2.1 i hi
  exact (List.getElem?_eq_some.mp hv).1

/-- The position before a recorded slot holds `GetInternal(USED)`, hence is
never itself a recorded slot. -/
theorem ghost_pred_not_slot (m : Metering) (sink : List Event)
    (hg : GhostOk m sink) (i : Nat) (hi : i ∈ m.ghost_recorded) :
    i - 1 ∉ m.cost_operator_idxs := by
  intro hmem
  obtain ⟨v, hv⟩ := SlotsOk_of_GhostOk m sink hg (i - 1) hmem
  have hE := (hg.2.2.2 i hi).2
  rw [hE] at hv
  simp at hv

/-- The invariant is stable under appending events to the sink. -/
theorem GhostOk_append_sink (m : Metering) (sink l : List Event)
    (hg : GhostOk m sink) : GhostOk m (sink ++ l) := by
  obtain ⟨hA, hP, hB, hE⟩ := hg
  refine ⟨hA, hP, ?_, ?_⟩
  · intro i hi
    obtain ⟨v, hv, hv0, hv1⟩ := hB i hi
    refine ⟨v, ?_, hv0, hv1⟩
    rw [List.getElem?_append, if_pos (List.getElem?_eq_some.mp hv).1]
    exact hv
  · intro i hi
    obtain ⟨h1, h2⟩ := hE i hi
    refine ⟨h1, ?_⟩
    rw [List.getElem?_append, if_pos (List.getElem?_eq_some.mp h2).1]
    exact h2

/-- The invariant does not mention the block cost, so it transfers across
`increment_cost`. -/
theorem GhostOk.increment (m : Metering) (sink : List Event) (ev : Event)
    (hg : GhostOk m sink) : GhostOk (m.increment_cost ev) sink := hg

/-- `end_` from an invariant state with a strictly positive running cost:
afterwards the recorded list is empty and every ever-recorded position holds a
strictly positive `I64Const`. -/
theorem end_GhostOk (m : Metering) (sink : List Event)
    (hg : GhostOk m sink) (hc : 1 ≤ m.current_block_cost) :
    ∃ m' sink',
      m.end_ sink = some (m', sink') ∧
      m'.cost_operator_idxs = [] ∧
      m'.ghost_recorded = m.ghost_recorded ∧
      sink'.length = sink.length ∧
      GhostOk m' sink' ∧
      (∀ i ∈ m'.ghost_recorded, ∃ v : Int,
        sink'[i]? = some (Event.WasmOwned (Operator.I64Const v)) ∧ 1 ≤ v) := by
  obtain ⟨m', sink', hend, h1, h2, h3, h4, hlen, hout, hin⟩ :=
    end_spec m sink (SlotsOk_of_GhostOk m sink hg)
  obtain ⟨hA, hP, hB, hE⟩ := hg
  have hall : ∀ i ∈ m.ghost_recorded, ∃ v : Int,
      sink'[i]? = some (Event.WasmOwned (Operator.I64Const v)) ∧ 1 ≤ v := by
    intro i hi
    obtain ⟨v, hv, hv0, hv1⟩ := hB i hi
    by_cases hmem : i ∈ m.cost_operator_idxs
    · obtain ⟨u, hu, hle⟩ := hin i hmem v hv
      exact ⟨u, hu, by omega⟩
    · exact ⟨v, by rw [hout i hmem]; exact hv, hv1 hmem⟩
  refine ⟨m', sink', hend, h1, h3, hlen, ⟨?_, ?_, ?_, ?_⟩, ?_⟩
  · intro i hi
    rw [h1] at hi
    exact absurd hi (List.not_mem_nil i)
  · rw [h1]
    exact List.Pairwise.nil
  · intro i hi
    rw [h3] at hi
    obtain ⟨v, hv, hv1⟩ := hall i hi
    exact ⟨v, hv, by omega, fun _ => hv1⟩
  · intro i hi
    rw [h3] at hi
    obtain ⟨hge, hpred⟩ := hE i hi
    refine ⟨hge, ?_⟩
    rw [hout (i - 1) (ghost_pred_not_slot m sink ⟨hA, hP, hB, hE⟩ i hi)]
    exact hpred
  · intro i hi
    rw [h3] at hi
    exact hall i hi

/-- `begin` from an invariant state: the new slot is recorded and the
invariant is preserved (old indices remain, possibly unpatched). -/
theorem begin_GhostOk (m : Metering) (sink : List Event) (hg : GhostOk m sink) :
    ∃ m' sink',
      m.begin sink = some (m', sink') ∧
      m'.cost_operator_idxs = m.cost_operator_idxs ++ [sink.length + 1] ∧
      m'.ghost_recorded = m.ghost_recorded ++ [sink.length + 1] ∧
      sink'.length = sink.length + 10 ∧
      GhostOk m' sink' := by
  obtain ⟨m', base, hbeg, h1, h2, h3, h4, hlen, hout, hin⟩ :=
    begin_spec m sink (SlotsOk_of_GhostOk m sink hg)
  obtain ⟨hA, hP, hB, hE⟩ := hg
  have hbaselen : base.length = sink.length := hlen
  have hlookup : ∀ i, i < sink.length →
      (base ++ preludeEvents 0)[i]? = base[i]? := by
    intro i hilt
    rw [List.getElem?_append, if_pos (by omega)]
  refine ⟨m', base ++ preludeEvents 0, hbeg, h1, h3, ?_, ⟨?_, ?_, ?_, ?_⟩⟩
  · simp [hbaselen, preludeEvents]
  · intro i hi
    rw [h1] at hi
    rw [h3]
    rcases List.mem_append.mp hi with hi | hi
    · exact List.mem_append_left _ (hA i hi)
    · exact List.mem_append_right _ hi
  · rw [h1]
    rw [List.pairwise_append]
    refine ⟨hP, List.pairwise_singleton _ _, ?_⟩
    intro a ha b hb
    rw [List.mem_singleton] at hb
    subst hb
    obtain ⟨v, hv⟩ := SlotsOk_of_GhostOk m sink ⟨hA, hP, hB, hE⟩ a ha
    have := (List.getElem?_eq_some.mp hv).1
    omega
  · intro i hi
    rw [h3] at hi
    rcases List.mem_append.mp hi with hi | hi
    · have hilt : i < sink.length := by
        obtain ⟨v, hv, _, _⟩ := hB i hi
        exact (List.getElem?_eq_some.mp hv).1
      obtain ⟨v, hv, hv0, hv1⟩ := hB i hi
      by_cases hmem : i ∈ m.cost_operator_idxs
      · obtain ⟨u, hu, hle⟩ := hin i hmem v hv
        refine ⟨u, ?_, by omega, ?_⟩
        · rw [hlookup i hilt]
          exact hu
        · intro hnot
          rw [h1] at hnot
          exact absurd (List.mem_append_left _ hmem) hnot
      · refine ⟨v, ?_, hv0, ?_⟩
        · rw [hlookup i hilt, hout i hmem]
          exact hv
        · intro _
          exact hv1 hmem
    · rw [List.mem_singleton] at hi
      subst hi
      refine ⟨0, ?_, le_refl 0, ?_⟩
      · rw [List.getElem?_append_right (by omega : base.length ≤ sink.length + 1)]
        have : sink.length + 1 - base.length = 1 := by omega
        rw [this]
        rfl
      · intro hnot
        rw [h1] at hnot
        exact absurd (List.mem_append_right _ (List.mem_singleton_self _)) hnot
  · intro i hi
    rw [h3] at hi
    rcases List.mem_append.mp hi with hi | hi
    · obtain ⟨hge, hpred⟩ := hE i hi
      have hilt : i < sink.length := by
        obtain ⟨v, hv, _, _⟩ := hB i hi
        exact (List.getElem?_eq_some.mp hv).1
      refine ⟨hge, ?_⟩
      rw [hlookup (i - 1) (by omega),
          hout (i - 1) (ghost_pred_not_slot m sink ⟨hA, hP, hB, hE⟩ i hi)]
      exact hpred
    · rw [List.mem_singleton] at hi
      subst hi
      refine ⟨by omega, ?_⟩
      have : sink.length + 1 - 1 = sink.length := by omega
      rw [this,
          List.getElem?_append_right (by omega : base.length ≤ sink.length)]
      have : sink.length - base.length = 0 := by omega
      rw [this]
      rfl

/-- One `feed_event` step on any Wasm operator event preserves the invariant
and strictly grows the sink. -/
theorem feed_wasm_GhostOk (m : Metering) (sink : List Event) (op : Operator)
    (w : Operator → Event) (hw : w = Event.Wasm ∨ w = Event.WasmOwned)
    (hg : GhostOk m sink) :
    ∃ m' sink', m.feed_event (w op) sink = some (m', sink') ∧
      GhostOk m' sink' ∧ sink.length < sink'.length := by
  obtain ⟨base, m', hfeed, hlen, hout, _, hin, hidx, _, hgr, _⟩ :=
    feed_wasm_step_spec m sink op w hw (SlotsOk_of_GhostOk m sink hg)
  obtain ⟨hA, hPW, hB, hE⟩ := hg
  have hlookupOld : ∀ i, i < sink.length →
      (base ++ w op :: (if isOpenerSpec op then preludeEvents 0 else []))[i]? =
        base[i]? := by
    intro i hi
    rw [List.getElem?_append, if_pos (by omega)]
  have hboundIdx : ∀ i ∈ m.cost_operator_idxs, i < sink.length := by
    intro i hi
    obtain ⟨v, hv⟩ := SlotsOk_of_GhostOk m sink ⟨hA, hPW, hB, hE⟩ i hi
    exact (List.getElem?_eq_some.mp hv).1
  have hboundGr : ∀ i ∈ m.ghost_recorded, i < sink.length :=
    ghost_lt_length m sink ⟨hA, hPW, hB, hE⟩
  refine ⟨m', base ++ w op :: (if isOpenerSpec op then preludeEvents 0 else []),
    hfeed, ⟨?_, ?_, ?_, ?_⟩, ?_⟩
  · intro i hi
    rw [hidx] at hi
    rw [hgr]
    rcases List.mem_append.mp hi with hi | hi
    · have him : i ∈ m.cost_operator_idxs := by
        by_cases hT : isTerminatorSpec op
        · rw [if_pos hT] at hi
          exact absurd hi (List.not_mem_nil i)
        · rw [if_neg hT] at hi
          exact hi
      exact List.mem_append_left _ (hA i him)
    · exact List.mem_append_right _ hi
  · rw [hidx]
    have hOldSub : ∀ a ∈ (if isTerminatorSpec op then ([] : List Nat)
        else m.cost_operator_idxs), a ∈ m.cost_operator_idxs := by
      intro a ha
      by_cases hT : isTerminatorSpec op
      · rw [if_pos hT] at ha
        exact absurd ha (List.not_mem_nil a)
      · rw [if_neg hT] at ha
        exact ha
    rw [List.pairwise_append]
    refine ⟨?_, ?_, ?_⟩
    · by_cases hT : isTerminatorSpec op
      · rw [if_pos hT]
        exact List.Pairwise.nil
      · rw [if_neg hT]
        exact hPW
    · by_cases hO : isOpenerSpec op
      · rw [if_pos hO]
        exact List.pairwise_singleton _ _
      · rw [if_neg hO]
        exact List.Pairwise.nil
    · intro a ha b hb
      have haLt := hboundIdx a (hOldSub a ha)
      by_cases hO : isOpenerSpec op
      · rw [if_pos hO, List.mem_singleton] at hb
        subst hb
        omega
      · rw [if_neg hO] at hb
        exact absurd hb (List.not_mem_nil b)
  · intro i hi
    rw [hgr] at hi
    rcases List.mem_append.mp hi with hi | hi
    · obtain ⟨v, hv, hv0, hv1⟩ := hB i hi
      have hiLt : i < sink.length := (List.getElem?_eq_some.mp hv).1
      by_cases hmem : i ∈ m.cost_operator_idxs
      · obtain ⟨u, hu, hgrow, hsame⟩ := hin i hmem v hv
        refine ⟨u, by rw [hlookupOld i hiLt]; exact hu, ?_, ?_⟩
        · by_cases hTO : (isTerminatorSpec op || isOpenerSpec op) = true
          · have := hgrow hTO
            omega
          · have := hsame (by
              revert hTO
              cases isTerminatorSpec op || isOpenerSpec op <;> simp)
            omega
        · intro hnot
          rw [hidx] at hnot
          by_cases hT : isTerminatorSpec op
          · have := hgrow (by simp [hT])
            omega
          · exact absurd
              (List.mem_append_left _ (by rw [if_neg hT]; exact hmem)) hnot
      · refine ⟨v, ?_, hv0, fun _ => hv1 hmem⟩
        rw [hlookupOld i hiLt, hout i hmem]
        exact hv
    · have hO : isOpenerSpec op = true := by
        by_contra hO'
        rw [if_neg hO'] at hi
        exact absurd hi (List.not_mem_nil i)
      rw [if_pos hO, List.mem_singleton] at hi
      subst hi
      refine ⟨0, ?_, le_refl 0, ?_⟩
      · rw [List.getElem?_append_right (by omega : base.length ≤ sink.length + 2)]
        have h2 : sink.length + 2 - base.length = 2 := by omega
        rw [h2, if_pos hO]
        rfl
      · intro hnot
        rw [hidx] at hnot
        exact absurd (List.mem_append_right _
          (by rw [if_pos hO]; exact List.mem_singleton_self _)) hnot
  · intro i hi
    rw [hgr] at hi
    rcases List.mem_append.mp hi with hi | hi
    · obtain ⟨hge, hpred⟩ := hE i hi
      have hiLt : i < sink.length := hboundGr i hi
      refine ⟨hge, ?_⟩
      rw [hlookupOld (i - 1) (by omega),
          hout (i - 1) (ghost_pred_not_slot m sink ⟨hA, hPW, hB, hE⟩ i hi)]
      exact hpred
    · have hO : isOpenerSpec op = true := by
        by_contra hO'
        rw [if_neg hO'] at hi
        exact absurd hi (List.not_mem_nil i)
      rw [if_pos hO, List.mem_singleton] at hi
      subst hi
      refine ⟨by omega, ?_⟩
      have h1 : sink.length + 2 - 1 = sink.length + 1 := by omega
      rw [h1, List.getElem?_append_right (by omega : base.length ≤ sink.length + 1)]
      have h2 : sink.length + 1 - base.length = 1 := by omega
      rw [h2, if_pos hO]
      rfl
  · rw [List.length_append, hlen, List.length_cons]
    omega

/-- The `FunctionBegin` step preserves the invariant and emits eleven events. -/
theorem feed_FB_GhostOk (m : Metering) (sink : List Event) (fid : Nat)
    (hg : GhostOk m sink) :
    ∃ m' sink',
      m.feed_event (Event.Internal (InternalEvent.FunctionBegin fid)) sink =
        some (m', sink') ∧
      GhostOk m' sink' ∧ sink'.length = sink.length + 11 := by
  rw [feed_event_FB_eq]
  have hg₁ : GhostOk
      (m.increment_cost (Event.Internal (InternalEvent.FunctionBegin fid)))
      (sink ++ [Event.Internal (InternalEvent.FunctionBegin fid)]) :=
    GhostOk.increment _ _ _ (GhostOk_append_sink m sink _ hg)
  obtain ⟨m', sink', hbeg, _, _, hlen', hg'⟩ := begin_GhostOk _ _ hg₁
  refine ⟨m', sink', hbeg, hg', ?_⟩
  rw [hlen', List.length_append, List.length_singleton]

/-- Feeding a list of Wasm operator events preserves the invariant. -/
theorem feedEvents_ops_GhostOk :
    ∀ (body : List Event), (∀ ev ∈ body, isOperatorEvent ev = true) →
      ∀ (m : Metering) (sink : List Event), GhostOk m sink →
        ∃ p, feedEvents m sink body = some p ∧ GhostOk p.1 p.2 ∧
          sink.length ≤ p.2.length := by
  intro body
  induction body with
  | nil =>
      intro _ m sink hg
      exact ⟨(m, sink), rfl, hg, le_refl _⟩
  | cons ev rest ih =>
      intro h m sink hg
      have hev := h ev (List.mem_cons_self _ _)
      have hstep : ∃ m' sink', m.feed_event ev sink = some (m', sink') ∧
          GhostOk m' sink' ∧ sink.length < sink'.length := by
        cases ev with
        | Wasm op => exact feed_wasm_GhostOk m sink op Event.Wasm (Or.inl rfl) hg
        | WasmOwned op =>
            exact feed_wasm_GhostOk m sink op Event.WasmOwned (Or.inr rfl) hg
        | Internal iev => simp [isOperatorEvent] at hev
      obtain ⟨m', sink', hfeed, hg', hlt⟩ := hstep
      obtain ⟨p, hrun, hgp, hle⟩ :=
        ih (fun e he => h e (List.mem_cons_of_mem _ he)) m' sink' hg'
      refine ⟨p, ?_, hgp, by omega⟩
      rw [feedEvents_cons, hfeed, Option.some_bind]
      exact hrun

/-- `remove_trailing_injection` on a sink of length at least eleven, as a
conditional on the probed event. -/
theorem remove_trailing_cases (sink : List Event) (h11 : 11 ≤ sink.length) :
    Metering.remove_trailing_injection sink =
      (if sink[sink.length - 11]? = some (Event.WasmOwned Operator.End)
       then some (sink.take (sink.length - 10)) else some sink) := by
  unfold Metering.remove_trailing_injection
  rw [if_neg (by omega)]
  by_cases hc : sink[sink.length - 11]? = some (Event.WasmOwned Operator.End)
  · rw [if_pos hc, hc]
  · rw [if_neg hc]
    cases hsc : sink[sink.length - 11]? with
    | none => rfl
    | some e =>
        rcases e with op | op | iev
        · rfl
        · cases op <;> first | rfl | (exact absurd hsc hc)
        · rfl

/-- The `FunctionEnd` step from an invariant state with a large-enough sink:
it succeeds, and afterwards every ever-recorded slot position still inside the
final sink holds a strictly positive `I64Const`. -/
theorem feed_FE_final (m : Metering) (sink : List Event) (hg : GhostOk m sink)
    (hlen : 11 ≤ sink.length) :
    ∃ m' sink',
      m.feed_event (Event.Internal InternalEvent.FunctionEnd) sink =
        some (m', sink') ∧
      m'.ghost_recorded = m.ghost_recorded ∧
      (∀ i ∈ m'.ghost_recorded, i < sink'.length →
        ∃ v : Int, sink'[i]? = some (Event.WasmOwned (Operator.I64Const v)) ∧
          1 ≤ v) := by
  have hg₁ : GhostOk
      (m.increment_cost (Event.Internal InternalEvent.FunctionEnd)) sink :=
    GhostOk.increment _ _ _ hg
  obtain ⟨m₁, s₁, hend, h1i, h1r, hl₁, hg₁', hpos⟩ :=
    end_GhostOk _ sink hg₁ (by simp [Metering.increment_cost])
  have hl₁' : s₁.length = sink.length := hl₁
  have h11' : 11 ≤ s₁.length := by omega
  by_cases hc : s₁[s₁.length - 11]? = some (Event.WasmOwned Operator.End)
  · -- the trailing strip fires
    have hstrip : Metering.remove_trailing_injection s₁ =
        some (s₁.take (s₁.length - 10)) := by
      rw [remove_trailing_cases s₁ h11', if_pos hc]
    have hfeed : m.feed_event (Event.Internal InternalEvent.FunctionEnd) sink =
        some (m₁, s₁.take (s₁.length - 10) ++
          [Event.Internal InternalEvent.FunctionEnd]) := by
      rw [feed_event_FE_eq]
      simp only [Option.bind_eq_bind, hend, Option.some_bind, hstrip]
    refine ⟨m₁, _, hfeed, h1r, ?_⟩
    intro i hi hilt
    obtain ⟨v, hv, hv1⟩ := hpos i hi
    have hlenfin : (s₁.take (s₁.length - 10) ++
        [Event.Internal InternalEvent.FunctionEnd]).length =
          (s₁.length - 10) + 1 := by
      rw [List.length_append, List.length_take, List.length_singleton]
      omega
    by_cases hcase : i < s₁.length - 10
    · refine ⟨v, ?_, hv1⟩
      rw [List.getElem?_append,
          if_pos (by rw [List.length_take]; omega),
          List.getElem?_take, if_pos hcase]
      exact hv
    · exfalso
      have hieq : i = s₁.length - 10 := by
        rw [hlenfin] at hilt
        omega
      obtain ⟨hge, hpredEq⟩ := hg₁'.2.2.2 i hi
      have hidx : i - 1 = s₁.length - 11 := by omega
      rw [hidx, hc] at hpredEq
      simp at hpredEq
  · -- no strip
    have hstrip : Metering.remove_trailing_injection s₁ = some s₁ := by
      rw [remove_trailing_cases s₁ h11', if_neg hc]
    have hfeed : m.feed_event (Event.Internal InternalEvent.FunctionEnd) sink =
        some (m₁, s₁ ++ [Event.Internal InternalEvent.FunctionEnd]) := by
      rw [feed_event_FE_eq]
      simp only [Option.bind_eq_bind, hend, Option.some_bind, hstrip]
    refine ⟨m₁, _, hfeed, h1r, ?_⟩
    intro i hi _
    obtain ⟨v, hv, hv1⟩ := hpos i hi
    refine ⟨v, ?_, hv1⟩
    rw [List.getElem?_append, if_pos (List.getElem?_eq_some.mp hv).1]
    exact hv

/-- The fold of `patchCostSlot` never changes the sink's length. -/
theorem foldlM_patch_length (cost : Nat) :
    ∀ (idxs : List Nat) (sink sink' : List Event),
      idxs.foldlM (patchCostSlot cost) sink = some sink' →
      sink'.length = sink.length := by
  intro idxs
  induction idxs with
  | nil =>
      intro sink sink' h
      simp only [List.foldlM_nil] at h
      cases h
      rfl
  | cons i rest ih =>
      intro sink sink' h
      rw [List.foldlM_cons] at h
      cases hp : patchCostSlot cost sink i with
      | none => rw [hp] at h; cases h
      | some s₁ =>
          rw [hp] at h
          have hlen₁ : s₁.length = sink.length := by
            unfold patchCostSlot at hp
            cases hm : sink[i]? with
            | none => rw [hm] at hp; cases hp
            | some e =>
                rw [hm] at hp
                rcases e with op | op | iev
                · cases hp
                · cases op <;> (try cases hp) <;> simp [List.length_set]
                · cases hp
          rw [ih s₁ sink' h, hlen₁]

/-- A successful `end_` preserves the sink length. -/
theorem end_some_length (m : Metering) (sink : List Event)
    (m' : Metering) (sink' : List Event)
    (h : m.end_ sink = some (m', sink')) : sink'.length = sink.length := by
  unfold Metering.end_ Metering.set_costs at h
  cases hf : m.cost_operator_idxs.foldlM (patchCostSlot m.current_block_cost) sink with
  | none => rw [hf] at h; cases h
  | some s =>
      rw [hf] at h
      simp only [Option.bind_eq_bind, Option.some_bind] at h
      injection h with h'
      have hs : s = sink' := congrArg Prod.snd h'
      rw [← hs]
      exact foldlM_patch_length _ _ _ _ hf

/-- C7, amended: for every well-formed function-body stream (`FunctionBegin`,
Wasm operator events, `FunctionEnd`), the run succeeds and every sink position
ever recorded in `cost_operator_idxs` that still lies within the final sink
(trailing-strip may have removed the last prelude's slot) holds a
`WasmOwned(I64Const)` whose value is strictly positive. -/
theorem finished_function_slots_positive (fid : Nat) (body : List Event)
    (hbody : ∀ ev ∈ body, isOperatorEvent ev = true) :
    ∃ p, runMetering (Event.Internal (InternalEvent.FunctionBegin fid) ::
          body ++ [Event.Internal InternalEvent.FunctionEnd]) = some p ∧
      ∀ i ∈ p.1.ghost_recorded, i < p.2.length →
        ∃ v : Int, p.2[i]? = some (Event.WasmOwned (Operator.I64Const v)) ∧
          1 ≤ v := by
  unfold runMetering
  have hg0 : GhostOk Metering.new [] := by
    refine ⟨?_, List.Pairwise.nil, ?_, ?_⟩ <;>
      · intro i hi
        exact absurd hi (List.not_mem_nil i)
  rw [List.cons_append, feedEvents_cons]
  obtain ⟨m₁, s₁, hFB, hg₁, hlen₁⟩ := feed_FB_GhostOk Metering.new [] fid hg0
  rw [hFB, Option.some_bind, feedEvents_append]
  obtain ⟨p, hbodyrun, hgp, hlep⟩ := feedEvents_ops_GhostOk body hbody m₁ s₁ hg₁
  rw [hbodyrun, Option.some_bind]
  have h11 : 11 ≤ p.2.length := by
    rw [List.length_nil] at hlen₁
    omega
  obtain ⟨m₂, s₂, hFE, hgr₂, hfin⟩ := feed_FE_final p.1 p.2 hgp h11
  rw [feedEvents_cons, hFE, Option.some_bind]
  exact ⟨(m₂, s₂), rfl, hfin⟩

/-- Witness for the amended C7: a one-operator body. -/
theorem finished_function_slots_positive_witness :
    ∃ p, runMetering (Event.Internal (InternalEvent.FunctionBegin 0) ::
          [Event.WasmOwned Operator.Drop] ++
            [Event.Internal InternalEvent.FunctionEnd]) = some p ∧
      ∀ i ∈ p.1.ghost_recorded, i < p.2.length →
        ∃ v : Int, p.2[i]? = some (Event.WasmOwned (Operator.I64Const v)) ∧
          1 ≤ v :=
  finished_function_slots_positive 0 [Event.WasmOwned Operator.Drop] (by decide)

/-- C10: `remove_trailing_injection` reads position `len - 11` of the sink
unconditionally, so feeding `FunctionEnd` while the sink holds fewer than
eleven events aborts (usize underflow, then out-of-bounds); whereas for any
stream `FunctionBegin`, Wasm operators, `FunctionEnd`, the sink holds at least
eleven events when `FunctionEnd` arrives and the whole run succeeds. -/
theorem function_end_underflow_or_in_bounds :
    (∀ (m : Metering) (sink : List Event), sink.length < 11 →
      m.feed_event (Event.Internal InternalEvent.FunctionEnd) sink = none) ∧
    (∀ (fid : Nat) (body : List Event),
      (∀ ev ∈ body, isOperatorEvent ev = true) →
      (runMetering (Event.Internal (InternalEvent.FunctionBegin fid) ::
        body ++ [Event.Internal InternalEvent.FunctionEnd])).isSome = true) := by
  constructor
  · intro m sink hlen
    rw [feed_event_FE_eq]
    cases hset : (m.increment_cost
        (Event.Internal InternalEvent.FunctionEnd)).end_ sink with
    | none => simp only [Option.bind_eq_bind, hset, Option.none_bind]
    | some p =>
        have hlenp : p.2.length = sink.length :=
          end_some_length _ _ _ _ (by rw [hset])
        have hstrip : Metering.remove_trailing_injection p.2 = none := by
          unfold Metering.remove_trailing_injection
          rw [if_pos (by omega)]
        simp only [Option.bind_eq_bind, hset, Option.some_bind, hstrip,
          Option.none_bind]
  · intro fid body hbody
    unfold runMetering
    have hg0 : GhostOk Metering.new [] := by
      refine ⟨?_, List.Pairwise.nil, ?_, ?_⟩ <;>
        · intro i hi
          exact absurd hi (List.not_mem_nil i)
    rw [List.cons_append, feedEvents_cons]
    obtain ⟨m₁, s₁, hFB, hg₁, hlen₁⟩ := feed_FB_GhostOk Metering.new [] fid hg0
    rw [hFB, Option.some_bind, feedEvents_append]
    obtain ⟨p, hbodyrun, hgp, hlep⟩ := feedEvents_ops_GhostOk body hbody m₁ s₁ hg₁
    rw [hbodyrun, Option.some_bind]
    have h11 : 11 ≤ p.2.length := by
      rw [List.length_nil] at hlen₁
      omega
    obtain ⟨m₂, s₂, hFE, _, _⟩ := feed_FE_final p.1 p.2 hgp h11
    rw [feedEvents_cons, hFE, Option.some_bind]
    rfl

/-- Witness for C10: feeding `FunctionEnd` first on an empty sink aborts, and
a concrete well-formed stream runs to completion. -/
theorem function_end_underflow_or_in_bounds_witness :
    Metering.new.feed_event (Event.Internal InternalEvent.FunctionEnd) [] =
      none ∧
    (runMetering (Event.Internal (InternalEvent.FunctionBegin 0) ::
      [Event.WasmOwned Operator.Nop] ++
        [Event.Internal InternalEvent.FunctionEnd])).isSome = true :=
  ⟨function_end_underflow_or_in_bounds.1 Metering.new [] (by decide),
   function_end_underflow_or_in_bounds.2 0 [Event.WasmOwned Operator.Nop]
     (by decide)⟩

end WasmerMetering
